import Mathlib

/-
Verification of the sdb SimpleDB client (sdb.go): request canonicalization,
signing pipeline, response and error handling, action parameter builders, the
buffering log writer, and the attribute helpers.  Strings are modelled as Lean
strings, byte sequences as lists of natural numbers below 256.
-/

namespace SDB

set_option maxHeartbeats 1000000
set_option maxRecDepth 8192

/-- UTF-8 encoding of a single character as a list of byte values, the byte
semantics of a Go string holding that character. -/
def utf8EncodeChar (c : Char) : List Nat :=
  if c.toNat < 0x80 then [c.toNat]
  else if c.toNat < 0x800 then [0xC0 + c.toNat / 64, 0x80 + c.toNat % 64]
  else if c.toNat < 0x10000 then
    [0xE0 + c.toNat / 4096, 0x80 + c.toNat / 64 % 64, 0x80 + c.toNat % 64]
  else
    [0xF0 + c.toNat / 262144, 0x80 + c.toNat / 4096 % 64, 0x80 + c.toNat / 64 % 64,
      0x80 + c.toNat % 64]

/-- UTF-8 byte sequence of a character list (the bytes of a Go string). -/
def utf8Encode : List Char → List Nat
  | [] => []
  | c :: cs => utf8EncodeChar c ++ utf8Encode cs

/-- Decode one UTF-8 character from the front of a byte list, returning the
character and the remaining bytes. -/
def utf8DecodeOne : List Nat → Option (Char × List Nat)
  | [] => none
  | b :: bs =>
    if b < 0x80 then some (Char.ofNat b, bs)
    else if b < 0xC0 then none
    else if b < 0xE0 then
      match bs with
      | b1 :: bs1 =>
        if 0x80 ≤ b1 ∧ b1 < 0xC0 then
          some (Char.ofNat ((b - 0xC0) * 64 + (b1 - 0x80)), bs1)
        else none
      | [] => none
    else if b < 0xF0 then
      match bs with
      | b1 :: b2 :: bs2 =>
        if (0x80 ≤ b1 ∧ b1 < 0xC0) ∧ (0x80 ≤ b2 ∧ b2 < 0xC0) then
          some (Char.ofNat ((b - 0xE0) * 4096 + (b1 - 0x80) * 64 + (b2 - 0x80)), bs2)
        else none
      | _ => none
    else if b < 0xF8 then
      match bs with
      | b1 :: b2 :: b3 :: bs3 =>
        if (0x80 ≤ b1 ∧ b1 < 0xC0) ∧ (0x80 ≤ b2 ∧ b2 < 0xC0) ∧ (0x80 ≤ b3 ∧ b3 < 0xC0) then
          some (Char.ofNat
            ((b - 0xF0) * 262144 + (b1 - 0x80) * 4096 + (b2 - 0x80) * 64 + (b3 - 0x80)), bs3)
        else none
      | _ => none
    else none

/-- Fuel-driven UTF-8 decoding; any fuel at least the byte count is enough. -/
def utf8DecodeAux : Nat → List Nat → Option (List Char)
  | _, [] => some []
  | 0, _ :: _ => none
  | fuel + 1, b :: bs =>
    match utf8DecodeOne (b :: bs) with
    | none => none
    | some (c, rest) => (utf8DecodeAux fuel rest).map (fun cs => c :: cs)

/-- Decode a UTF-8 byte list into characters; fails on malformed input. -/
def utf8Decode (l : List Nat) : Option (List Char) := utf8DecodeAux l.length l

/-- Bytes Go's url.QueryEscape leaves unescaped: alphanumerics and the four
marks dash, underscore, dot, tilde. -/
def isUnreservedByte (b : Nat) : Bool :=
  (48 ≤ b && b ≤ 57) || (65 ≤ b && b ≤ 90) || (97 ≤ b && b ≤ 122) ||
    b == 45 || b == 46 || b == 95 || b == 126

/-- Uppercase hexadecimal digit character, as used by Go's url escaping. -/
def hexDigitChar (n : Nat) : Char :=
  if n < 10 then Char.ofNat (48 + n) else Char.ofNat (55 + n)

/-- Byte-level model of Go url.QueryEscape: unreserved bytes pass through,
a space byte becomes '+', every other byte becomes a percent sign followed by
two uppercase hex digits. -/
def queryEscapeBytes : List Nat → List Char
  | [] => []
  | b :: bs =>
    (if isUnreservedByte b then [Char.ofNat b]
     else if b = 32 then ['+']
     else ['%', hexDigitChar (b / 16), hexDigitChar (b % 16)]) ++ queryEscapeBytes bs

/-- Go url.QueryEscape applied to a string. -/
def queryEscape (s : String) : String := ⟨queryEscapeBytes (utf8Encode s.data)⟩

/-- Escaping with "%20" for a space byte: the form the signed canonical string
takes after strings.Replace turns every '+' into "%20". -/
def canonEscapeBytes : List Nat → List Char
  | [] => []
  | b :: bs =>
    (if isUnreservedByte b then [Char.ofNat b]
     else ['%', hexDigitChar (b / 16), hexDigitChar (b % 16)]) ++ canonEscapeBytes bs

def canonEscape (s : String) : String := ⟨canonEscapeBytes (utf8Encode s.data)⟩

/-- Model of Go strings.Replace(s, "+", "%20", -1): every '+' character is
replaced by the three characters "%20". -/
def plusTo20Chars : List Char → List Char
  | [] => []
  | c :: cs => (if c = '+' then ['%', '2', '0'] else [c]) ++ plusTo20Chars cs

def plusTo20 (s : String) : String := ⟨plusTo20Chars s.data⟩

/-- Value of a hexadecimal digit character, accepting both cases as Go's
unescaping does. -/
def hexVal (c : Char) : Option Nat :=
  if 48 ≤ c.toNat ∧ c.toNat ≤ 57 then some (c.toNat - 48)
  else if 65 ≤ c.toNat ∧ c.toNat ≤ 70 then some (c.toNat - 55)
  else if 97 ≤ c.toNat ∧ c.toNat ≤ 102 then some (c.toNat - 87)
  else none

/-- Character-level model of Go url.QueryUnescape, producing the byte sequence:
a percent sequence decodes to one byte, '+' decodes to a space byte, any other
character passes through as its UTF-8 bytes; malformed percents fail. -/
def queryUnescapeChars : List Char → Option (List Nat)
  | [] => some []
  | c :: cs =>
    if c = '%' then
      match cs with
      | h1 :: h2 :: cs' =>
        match hexVal h1, hexVal h2 with
        | some a, some b => (queryUnescapeChars cs').map (fun r => (16 * a + b) :: r)
        | _, _ => none
      | _ => none
    else if c = '+' then (queryUnescapeChars cs).map (fun r => 32 :: r)
    else (queryUnescapeChars cs).map (fun r => utf8EncodeChar c ++ r)

/-- Go url.QueryUnescape on a string, decoding the byte result as UTF-8. -/
def queryUnescape (s : String) : Option String :=
  (queryUnescapeChars s.data).bind (fun bs => (utf8Decode bs).map (fun cs => String.mk cs))

/-- Request parameters in insertion order: the model of the url.Values field
as built by the successive Add calls. -/
abbrev Values := List (String × String)

/-- Model of url.Values.Add: appends one key-value pair. -/
def addValue (p : Values) (k v : String) : Values := p ++ [(k, v)]

/-- Insert a pair into a key-sorted pair list, before the first pair of
strictly larger-or-equal position, keeping insertion order among equal keys. -/
def insertPair (x : String × String) : Values → Values
  | [] => [x]
  | y :: l => if x.1 ≤ y.1 then x :: y :: l else y :: insertPair x l

/-- Stable sort of the pairs by key: the order url.Values.Encode emits, since
Go sorts the distinct keys and walks each key's values in insertion order. -/
def sortPairs : Values → Values
  | [] => []
  | x :: l => insertPair x (sortPairs l)

/-- Characters of one escaped key=value piece of url.Values.Encode. -/
def piece (kv : String × String) : List Char :=
  queryEscapeBytes (utf8Encode kv.1.data) ++ '=' :: queryEscapeBytes (utf8Encode kv.2.data)

/-- Join character chunks with ampersands, as url.Values.Encode does. -/
def joinAmp : List (List Char) → List Char
  | [] => []
  | [x] => x
  | x :: y :: xs => x ++ '&' :: joinAmp (y :: xs)

/-- Model of url.Values.Encode: sorted, escaped key=value pairs joined by
ampersands. -/
def encodeValues (p : Values) : String := String.mk (joinAmp ((sortPairs p).map piece))

/-- Characters of one piece of the canonical (signed) query string, where a
space is "%20" rather than '+'. -/
def canonPiece (kv : String × String) : List Char :=
  canonEscapeBytes (utf8Encode kv.1.data) ++ '=' :: canonEscapeBytes (utf8Encode kv.2.data)

/-- Characters of the canonical query string described by the spec: pairs
percent-encoded with "%20" for space, sorted by key, joined by ampersands. -/
def canonicalQueryChars (p : Values) : List Char := joinAmp ((sortPairs p).map canonPiece)

/-- The canonical query string of a parameter list. -/
def canonicalQuery (p : Values) : String := String.mk (canonicalQueryChars p)

/-- Split a character list on ampersands, keeping empty segments, as Go's
ParseQuery cuts the raw query on each separator. -/
def splitAmp : List Char → List (List Char)
  | [] => [[]]
  | c :: cs =>
    let r := splitAmp cs
    if c = '&' then [] :: r
    else (c :: r.headD []) :: r.tail

/-- Cut a segment at its first '=' sign; without one the whole segment is the
key and the value is empty, as strings.Cut reports. -/
def cutEq : List Char → List Char × List Char
  | [] => ([], [])
  | c :: cs => if c = '=' then ([], cs) else (c :: (cutEq cs).1, (cutEq cs).2)

/-- Parse one key=value segment: cut at the first '=', unescape both halves
and decode them from UTF-8. -/
def parseSegment (seg : List Char) : Option (String × String) :=
  (queryUnescapeChars (cutEq seg).1).bind fun kb =>
    (utf8Decode kb).bind fun kc =>
      (queryUnescapeChars (cutEq seg).2).bind fun vb =>
        (utf8Decode vb).map fun vc => (String.mk kc, String.mk vc)

/-- Parse all segments in order, skipping empty ones as Go's ParseQuery does. -/
def parseSegments : List (List Char) → Option Values
  | [] => some []
  | seg :: rest =>
    if seg = ([] : List Char) then parseSegments rest
    else (parseSegment seg).bind fun kv => (parseSegments rest).map fun r => kv :: r

/-- Percent-decode a form-encoded query string back into its pairs. -/
def decodeQuery (s : String) : Option Values := parseSegments (splitAmp s.data)

/-- Values recorded for a key, in order: the mapping a pair list represents. -/
def getValues : Values → String → List String
  | [], _ => []
  | kv :: p, k => if kv.1 = k then kv.2 :: getValues p k else getValues p k

/-- Word addition modulo 2^32, the arithmetic of SHA-256. -/
def add32 (a b : Nat) : Nat := (a + b) % 4294967296

/-- Right rotation of a 32-bit word by k positions. -/
def rotr32 (k a : Nat) : Nat := a % 2 ^ k * 2 ^ (32 - k) + a / 2 ^ k

/-- Logical right shift of a 32-bit word. -/
def shr32 (k a : Nat) : Nat := a / 2 ^ k

/-- Bitwise complement within 32 bits. -/
def not32 (a : Nat) : Nat := a ^^^ 4294967295

def chBits (x y z : Nat) : Nat := (x &&& y) ^^^ (not32 x &&& z)

def majBits (x y z : Nat) : Nat := (x &&& y) ^^^ (x &&& z) ^^^ (y &&& z)

def bigSigma0 (x : Nat) : Nat := rotr32 2 x ^^^ rotr32 13 x ^^^ rotr32 22 x

def bigSigma1 (x : Nat) : Nat := rotr32 6 x ^^^ rotr32 11 x ^^^ rotr32 25 x

def smallSigma0 (x : Nat) : Nat := rotr32 7 x ^^^ rotr32 18 x ^^^ shr32 3 x

def smallSigma1 (x : Nat) : Nat := rotr32 17 x ^^^ rotr32 19 x ^^^ shr32 10 x

/-- SHA-256 round constants, written in decimal. -/
def K256 : List Nat :=
  [1116352408, 1899447441, 3049323471, 3921009573, 961987163, 1508970993, 2453635748,
   2870763221, 3624381080, 310598401, 607225278, 1426881987, 1925078388, 2162078206,
   2614888103, 3248222580, 3835390401, 4022224774, 264347078, 604807628, 770255983, 1249150122,
   1555081692, 1996064986, 2554220882, 2821834349, 2952996808, 3210313671, 3336571891,
   3584528711, 113926993, 338241895, 666307205, 773529912, 1294757372, 1396182291, 1695183700,
   1986661051, 2177026350, 2456956037, 2730485921, 2820302411, 3259730800, 3345764771,
   3516065817, 3600352804, 4094571909, 275423344, 430227734, 506948616, 659060556, 883997877,
   958139571, 1322822218, 1537002063, 1747873779, 1955562222, 2024104815, 2227730452,
   2361852424, 2428436474, 2756734187, 3204031479, 3329325298]

/-- Working state of the SHA-256 compression function. -/
structure Sha256State where
  a : Nat
  b : Nat
  c : Nat
  d : Nat
  e : Nat
  f : Nat
  g : Nat
  h : Nat

/-- SHA-256 initial hash value. -/
def sha256Init : Sha256State :=
  ⟨0x6a09e667, 0xbb67ae85, 0x3c6ef372, 0xa54ff53a, 0x510e527f, 0x9b05688c, 0x1f83d9ab,
   0x5be0cd19⟩

/-- Big-endian 32-bit words from a byte list. -/
def bytesToWords : List Nat → List Nat
  | b0 :: b1 :: b2 :: b3 :: rest => (((b0 * 256 + b1) * 256 + b2) * 256 + b3) :: bytesToWords rest
  | _ => []

/-- One extension step of the SHA-256 message schedule. -/
def scheduleStep (w : List Nat) : List Nat :=
  w ++ [add32 (add32 (smallSigma1 (w.getD (w.length - 2) 0)) (w.getD (w.length - 7) 0))
    (add32 (smallSigma0 (w.getD (w.length - 15) 0)) (w.getD (w.length - 16) 0))]

def scheduleN : Nat → List Nat → List Nat
  | 0, w => w
  | n + 1, w => scheduleN n (scheduleStep w)

/-- Full 64-entry message schedule from the 16 words of one block. -/
def schedule (w16 : List Nat) : List Nat := scheduleN 48 w16

/-- One SHA-256 compression round for a paired round constant and scheduled
word. -/
def sha256Round (st : Sha256State) (kw : Nat × Nat) : Sha256State :=
  let t1 := add32 st.h (add32 (bigSigma1 st.e) (add32 (chBits st.e st.f st.g)
    (add32 kw.1 kw.2)))
  let t2 := add32 (bigSigma0 st.a) (majBits st.a st.b st.c)
  ⟨add32 t1 t2, st.a, st.b, st.c, add32 st.d t1, st.e, st.f, st.g⟩

/-- Compress one 64-byte block into the running state. -/
def compressBlock (st : Sha256State) (block : List Nat) : Sha256State :=
  let w := schedule (bytesToWords block)
  let fin := (K256.zip w).foldl sha256Round st
  ⟨add32 st.a fin.a, add32 st.b fin.b, add32 st.c fin.c, add32 st.d fin.d, add32 st.e fin.e,
   add32 st.f fin.f, add32 st.g fin.g, add32 st.h fin.h⟩

/-- Big-endian 64-bit length field of the padding. -/
def lengthBytes (n : Nat) : List Nat :=
  [n / 2 ^ 56 % 256, n / 2 ^ 48 % 256, n / 2 ^ 40 % 256, n / 2 ^ 32 % 256, n / 2 ^ 24 % 256,
   n / 2 ^ 16 % 256, n / 2 ^ 8 % 256, n % 256]

/-- SHA-256 padding: a 0x80 byte, zeros to 56 mod 64, and the bit length. -/
def padMessage (msg : List Nat) : List Nat :=
  msg ++ [0x80] ++ List.replicate ((119 - msg.length % 64) % 64) 0 ++
    lengthBytes (8 * msg.length)

/-- Split into 64-byte blocks. -/
def chunks64 (l : List Nat) : List (List Nat) :=
  if h : l = [] then [] else l.take 64 :: chunks64 (l.drop 64)
termination_by l.length
decreasing_by
  have hp : 0 < l.length := List.length_pos.mpr h
  simp [List.length_drop]
  omega

/-- Big-endian bytes of one 32-bit word. -/
def wordBytes (w : Nat) : List Nat := [w / 2 ^ 24 % 256, w / 2 ^ 16 % 256, w / 2 ^ 8 % 256,
  w % 256]

/-- SHA-256 digest of a byte list, as 32 bytes. -/
def sha256 (msg : List Nat) : List Nat :=
  let st := (chunks64 (padMessage msg)).foldl compressBlock sha256Init
  wordBytes st.a ++ wordBytes st.b ++ wordBytes st.c ++ wordBytes st.d ++ wordBytes st.e ++
    wordBytes st.f ++ wordBytes st.g ++ wordBytes st.h

/-- HMAC-SHA256 with block size 64, as crypto/hmac instantiates it. -/
def hmacSha256 (key msg : List Nat) : List Nat :=
  let k0 := if key.length > 64 then sha256 key else key
  let k1 := k0 ++ List.replicate (64 - k0.length) 0
  let ipad := k1.map (fun b => b ^^^ 0x36)
  let opad := k1.map (fun b => b ^^^ 0x5c)
  sha256 (opad ++ sha256 (ipad ++ msg))

/-- Character of one 6-bit group in the standard base64 alphabet. -/
def base64Char (n : Nat) : Char :=
  if n < 26 then Char.ofNat (65 + n)
  else if n < 52 then Char.ofNat (97 + (n - 26))
  else if n < 62 then Char.ofNat (48 + (n - 52))
  else if n = 62 then '+'
  else '/'

/-- Standard base64 encoding with padding, as encoding/base64 StdEncoding. -/
def base64Chars : List Nat → List Char
  | [] => []
  | [b1] => [base64Char (b1 / 4), base64Char (b1 % 4 * 16), '=', '=']
  | [b1, b2] =>
    [base64Char (b1 / 4), base64Char (b1 % 4 * 16 + b2 / 16), base64Char (b2 % 16 * 4), '=']
  | b1 :: b2 :: b3 :: rest =>
    base64Char (b1 / 4) :: base64Char (b1 % 4 * 16 + b2 / 16) ::
      base64Char (b2 % 16 * 4 + b3 / 64) :: base64Char (b3 % 64) :: base64Chars rest

def base64Encode (bs : List Nat) : String := String.mk (base64Chars bs)

/-- Model of the sign method: base64-encoded HMAC-SHA256 of the string's
bytes keyed by the secret key's bytes. -/
def sign (secretKey : String) (s : String) : String :=
  base64Encode (hmacSha256 (utf8Encode secretKey.data) (utf8Encode s.data))

/-- Decimal digit character. -/
def digitChar (n : Nat) : Char := Char.ofNat (48 + n)

/-- Fuel-driven digit accumulation; the fuel only bounds the recursion depth
and any fuel at least the number itself is enough. -/
def natDigitsAux : Nat → Nat → List Char
  | 0, n => [digitChar n]
  | fuel + 1, n =>
    if n < 10 then [digitChar n] else natDigitsAux fuel (n / 10) ++ [digitChar (n % 10)]

/-- Decimal digits of a natural number, most significant first: the model of
strconv.Itoa and of the digits strconv.FormatInt emits. -/
def natDigits (n : Nat) : List Char := natDigitsAux n n

def natDecimal (n : Nat) : String := String.mk (natDigits n)

/-- Model of strconv.FormatInt(i, 10) on an integer. -/
def intDecimal (i : Int) : String :=
  if i < 0 then "-" ++ natDecimal (-i).toNat else natDecimal i.toNat

/-- Zero-padded two-digit field of the Go time layout. -/
def pad2 (n : Nat) : String := if n < 10 then "0" ++ natDecimal n else natDecimal n

/-- Zero-padded four-digit year field of the Go time layout. -/
def pad4 (n : Nat) : String :=
  if n < 10 then "000" ++ natDecimal n
  else if n < 100 then "00" ++ natDecimal n
  else if n < 1000 then "0" ++ natDecimal n
  else natDecimal n

/-- Broken-down UTC instant, the model of a time.Time value in UTC. -/
structure GoTime where
  year : Nat
  month : Nat
  day : Nat
  hour : Nat
  minute : Nat
  second : Nat

/-- Result of t.Format(DATE_FORMAT) with layout "2006-01-02T15:04:05-07:00"
on a UTC time: the numeric offset renders as "+00:00". -/
def formatTimeUTC (t : GoTime) : String :=
  pad4 t.year ++ "-" ++ pad2 t.month ++ "-" ++ pad2 t.day ++ "T" ++ pad2 t.hour ++ ":" ++
    pad2 t.minute ++ ":" ++ pad2 t.second ++ "+00:00"

/-- Client state: the fields of the SimpleDB struct. -/
structure SimpleDB where
  RawResponse : String
  RawRequest : String
  p : Values
  accessKey : String
  secretKey : String
  region : String

/-- Model of NewSimpleDB before its resetParameters call. -/
def mkSimpleDB (a s r : String) : SimpleDB :=
  { RawResponse := "", RawRequest := "", p := [], accessKey := a, secretKey := s, region := r }

/-- Model of resetParameters: clears the diagnostics, replaces the parameter
map by a fresh one and adds the four fixed protocol fields plus the formatted
UTC timestamp, in that order. -/
def resetParameters (sdb : SimpleDB) (t : GoTime) : SimpleDB :=
  { sdb with
    RawRequest := ""
    RawResponse := ""
    p := addValue (addValue (addValue (addValue (addValue [] "AWSAccessKeyId" sdb.accessKey)
      "SignatureMethod" "HmacSHA256") "SignatureVersion" "2") "Version" "2009-04-15")
      "Timestamp" (formatTimeUTC t) }

/-- The string-to-sign that post builds: method, region host, root path and
the plus-replaced Encode output, joined by newlines. -/
def stringToSign (sdb : SimpleDB) : String :=
  "POST\n" ++ sdb.region ++ "\n" ++ "/\n" ++ plusTo20 (encodeValues sdb.p)

/-- The request-building half of post: computes the string-to-sign, signs it,
adds the Signature parameter and records the plus-replaced encoded body as
RawRequest. -/
def postPrepare (sdb : SimpleDB) : SimpleDB :=
  let p' := addValue sdb.p "Signature" (sign sdb.secretKey (stringToSign sdb))
  { sdb with p := p', RawRequest := plusTo20 (encodeValues p') }

/-- Structured service error decoded from a non-200 response, with its Error
method rendering code and message. -/
structure SimpleDBError where
  Code : String
  Message : String
  RequestId : String

/-- Error envelope shape xml.Unmarshal fills on a non-200 response. -/
structure Response where
  Errors : List SimpleDBError
  RequestId : String

/-- Outcome of the non-200 branch of post, over an opaque type of XML decode
failures. -/
inductive PostError (δ : Type) where
  | decodeFailure (e : δ)
  | serviceError (e : SimpleDBError)
  | statusError (status : String)

/-- The non-200 branch of post: a failed unmarshal is returned as is; with at
least one decoded error entry a SimpleDBError is built from entry zero; with
an empty envelope errors.New(r.Status) is returned. -/
def handleNon200 {δ : Type} (status : String) (um : Except δ Response) : PostError δ :=
  match um with
  | .error e => .decodeFailure e
  | .ok v =>
    if v.Errors.length > 0 then
      .serviceError
        { Code := (v.Errors.headD ⟨"", "", ""⟩).Code
          Message := (v.Errors.headD ⟨"", "", ""⟩).Message
          RequestId := (v.Errors.headD ⟨"", "", ""⟩).RequestId }
    else .statusError status

/-- Status dispatch of post after the HTTP call: non-200 statuses go through
the error branch, a 200 proceeds to the success decode. -/
def postReceive {δ : Type} (statusCode : Nat) (status : String) (um : Except δ Response) :
    Option (PostError δ) :=
  if statusCode ≠ 200 then some (handleNon200 status um) else none

/-- Per-call response metadata common to the typed results that carry it. -/
structure ResponseMetadata where
  RequestId : String
  BoxUsage : Float

structure DeleteDomainResponse where
  ResponseMetadata : ResponseMetadata

structure CreateDomainResponse where
  ResponseMetadata : ResponseMetadata

structure ListDomainsResponse where
  DomainNames : List String
  ResponseMetadata : ResponseMetadata

structure DomainMetadataResponse where
  ItemCount : Int
  ItemNamesSizeBytes : Int
  AttributeNameCount : Int
  AttributeNamesSizeBytes : Int
  AttributeValueCount : Int
  AttributeValuesSizeBytes : Int
  Timestamp : Int
  ResponseMetadata : ResponseMetadata

structure PutAttributesResponse where
  ResponseMetadata : ResponseMetadata

/-- Attribute of an item, with the Replace flag of the data model. -/
structure Attribute where
  Name : String
  Value : String
  Replace : Bool

structure Item where
  Name : String
  Attributes : List Attribute

structure GetAttributesResponse where
  Attributes : List Attribute

structure DeleteAttributesResponse where
  ResponseMetadata : ResponseMetadata

structure SelectResponse where
  Items : List Item

/-- Parameter building of ListDomains before its post call. -/
def listDomainsBuild (sdb : SimpleDB) (t : GoTime) : SimpleDB :=
  let s := resetParameters sdb t
  { s with p := addValue s.p "Action" "ListDomains" }

/-- Parameter building of DomainMetadata before its post call. -/
def domainMetadataBuild (sdb : SimpleDB) (t : GoTime) (name : String) : SimpleDB :=
  let s := resetParameters sdb t
  { s with p := addValue (addValue s.p "Action" "DomainMetadata") "DomainName" name }

/-- Parameter building of CreateDomain before its post call. -/
def createDomainBuild (sdb : SimpleDB) (t : GoTime) (name : String) : SimpleDB :=
  let s := resetParameters sdb t
  { s with p := addValue (addValue s.p "Action" "CreateDomain") "DomainName" name }

/-- Parameter building of DeleteDomain before its post call. -/
def deleteDomainBuild (sdb : SimpleDB) (t : GoTime) (name : String) : SimpleDB :=
  let s := resetParameters sdb t
  { s with p := addValue (addValue s.p "Action" "DeleteDomain") "DomainName" name }

/-- Indexed Attribute.n.Name / Attribute.n.Value fields added by the loop of
PutAttributes, with n starting at k. -/
def attrFieldsFrom (k : Nat) : List Attribute → Values
  | [] => []
  | a :: rest =>
    ("Attribute." ++ natDecimal k ++ ".Name", a.Name) ::
      ("Attribute." ++ natDecimal k ++ ".Value", a.Value) :: attrFieldsFrom (k + 1) rest

/-- Parameter building of PutAttributes before its post call. -/
def putAttributesBuild (sdb : SimpleDB) (t : GoTime) (domain : String) (i : Item) : SimpleDB :=
  let s := resetParameters sdb t
  { s with
    p := addValue (addValue (addValue s.p "Action" "PutAttributes") "DomainName" domain)
      "ItemName" i.Name ++ attrFieldsFrom 1 i.Attributes }

/-- Indexed Item.k.Attribute.j.Name / .Value fields of the inner loop of
BatchPutAttributes. -/
def batchAttrFieldsFrom (k j : Nat) : List Attribute → Values
  | [] => []
  | a :: rest =>
    ("Item." ++ natDecimal k ++ ".Attribute." ++ natDecimal j ++ ".Name", a.Name) ::
      ("Item." ++ natDecimal k ++ ".Attribute." ++ natDecimal j ++ ".Value", a.Value) ::
      batchAttrFieldsFrom k (j + 1) rest

/-- Indexed Item.k.ItemName and attribute fields of the outer loop of
BatchPutAttributes. -/
def itemFieldsFrom (k : Nat) : List Item → Values
  | [] => []
  | it :: rest =>
    ("Item." ++ natDecimal k ++ ".ItemName", it.Name) ::
      (batchAttrFieldsFrom k 1 it.Attributes ++ itemFieldsFrom (k + 1) rest)

/-- Parameter building of BatchPutAttributes before its post call. -/
def batchPutAttributesBuild (sdb : SimpleDB) (t : GoTime) (domain : String)
    (items : List Item) : SimpleDB :=
  let s := resetParameters sdb t
  { s with
    p := addValue (addValue s.p "Action" "BatchPutAttributes") "DomainName" domain ++
      itemFieldsFrom 1 items }

/-- Parameter building of GetAttributes before its post call. -/
def getAttributesBuild (sdb : SimpleDB) (t : GoTime) (domain itemName : String) : SimpleDB :=
  let s := resetParameters sdb t
  { s with
    p := addValue (addValue (addValue s.p "Action" "GetAttributes") "DomainName" domain)
      "ItemName" itemName }

/-- Parameter building of DeleteItem before its post call. -/
def deleteItemBuild (sdb : SimpleDB) (t : GoTime) (domain itemName : String) : SimpleDB :=
  let s := resetParameters sdb t
  { s with
    p := addValue (addValue (addValue s.p "Action" "DeleteAttributes") "DomainName" domain)
      "ItemName" itemName }

/-- Parameter building of Select before its post call. -/
def selectBuild (sdb : SimpleDB) (t : GoTime) (q : String) : SimpleDB :=
  let s := resetParameters sdb t
  { s with p := addValue (addValue s.p "Action" "Select") "SelectExpression" q }

/-- Condition under which RemoveAttribute keeps an attribute: both the name
and the value differ from the target's. -/
def keptAttr (a attr : Attribute) : Bool :=
  attr.Name != a.Name && attr.Value != a.Value

/-- Model of Item.RemoveAttribute: rebuilds the attribute list keeping only
attributes whose name and value both differ, remembering the last one that
was dropped, starting from the zero Attribute. -/
def removeAttribute (i : Item) (a : Attribute) : Item × Attribute :=
  let r := i.Attributes.foldl
    (fun acc attr => if keptAttr a attr then (acc.1 ++ [attr], acc.2) else (acc.1, attr))
    (([] : List Attribute), (⟨"", "", false⟩ : Attribute))
  ({ i with Attributes := r.1 }, r.2)

/-- Unicode white space test of Go's unicode.IsSpace, covering the Latin-1
cases and the White_Space property code points. -/
def isGoSpace (c : Char) : Bool :=
  c.toNat == 9 || c.toNat == 10 || c.toNat == 11 || c.toNat == 12 || c.toNat == 13 ||
    c.toNat == 32 || c.toNat == 0x85 || c.toNat == 0xA0 || c.toNat == 0x1680 ||
    (0x2000 ≤ c.toNat && c.toNat ≤ 0x200A) || c.toNat == 0x2028 || c.toNat == 0x2029 ||
    c.toNat == 0x202F || c.toNat == 0x205F || c.toNat == 0x3000

/-- Model of strings.TrimSpace: drop white space from both ends. -/
def goTrimSpace (s : String) : String :=
  String.mk (((s.data.dropWhile isGoSpace).reverse.dropWhile isGoSpace).reverse)

/-- The item one SDBWriter.Write constructs: named by the Unix seconds and
nanoseconds joined by a dot, with a single msg attribute holding the trimmed
text. -/
def mkLogItem (u : Int) (ns : Nat) (text : String) : Item :=
  { Name := intDecimal u ++ "." ++ natDecimal ns
    Attributes := [{ Name := "msg", Value := goTrimSpace text, Replace := false }] }

/-- One SDBWriter.Write on the buffer: append the new item and, when the
buffer reaches 25 items, emit the batch and clear the buffer. -/
def writeStep (buf : List Item) (u : Int) (ns : Nat) (text : String) :
    List Item × Option (List Item) :=
  let i := mkLogItem u ns text
  let buf' := buf ++ [i]
  if buf'.length = 25 then ([], some buf') else (buf', none)

/-- Run a sequence of writes, collecting the batches flushed along the way. -/
def runWrites (buf : List Item) : List ((Int × Nat) × String) → List Item × List (List Item)
  | [] => (buf, [])
  | inp :: rest =>
    let r := writeStep buf inp.1.1 inp.1.2 inp.2
    let r2 := runWrites r.1 rest
    (r2.1, r.2.toList ++ r2.2)

/-- The time-derived item name of one log write. -/
def logName (un : Int × Nat) : String := intDecimal un.1 ++ "." ++ natDecimal un.2

/-- Item built from one write input: times paired with the written text. -/
def mkItemInp (inp : (Int × Nat) × String) : Item := mkLogItem inp.1.1 inp.1.2 inp.2

def c9Inputs : List ((Int × Nat) × String) :=
  (List.range 26).map (fun k => ((Int.ofNat k, k), "log line"))

def c1Sdb : SimpleDB :=
  { RawResponse := "", RawRequest := "", p := [("Action", "ListDomains")], accessKey := "AK",
    secretKey := "SK", region := "sdb.eu-west-1.amazonaws.com" }

/-- Single-parameter client used to exhibit a signature collision: the
parameter map holds one key "a" with the given value. -/
def c5Sdb (v : String) : SimpleDB :=
  { RawResponse := "", RawRequest := "", p := [("a", v)], accessKey := "AK",
    secretKey := "secret", region := "sdb.eu-west-1.amazonaws.com" }

def c5Sig (v : String) : String := sign (c5Sdb v).secretKey (stringToSign (c5Sdb v))

def c5Vec (v : String) : Fin 44 → Fin 128 := fun i =>
  ⟨((c5Sig v).data.getD i.val 'A').toNat % 128, Nat.mod_lt _ (by omega)⟩

theorem char_toNat_lt (c : Char) : c.toNat < 1114112 := by
  rcases c with ⟨⟨v, hv⟩, h⟩
  rcases h with h | h
  · exact Nat.lt_trans h (by decide)
  · exact h.2

theorem utf8DecodeOne_encodeChar (c : Char) (rest : List Nat) :
    utf8DecodeOne (utf8EncodeChar c ++ rest) = some (c, rest) := by
  have hlt : c.toNat < 1114112 := char_toNat_lt c
  by_cases h1 : c.toNat < 0x80
  · simp only [utf8EncodeChar, if_pos h1, List.cons_append, List.nil_append, utf8DecodeOne]
    rw [Char.ofNat_toNat]
  · by_cases h2 : c.toNat < 0x800
    · simp only [utf8EncodeChar, if_neg h1, if_pos h2, List.cons_append, List.nil_append,
        utf8DecodeOne]
      rw [if_neg (by omega), if_neg (by omega), if_pos (by omega), if_pos (by omega)]
      have he : (0xC0 + c.toNat / 64 - 0xC0) * 64 + (0x80 + c.toNat % 64 - 0x80) = c.toNat := by
        omega
      rw [he, Char.ofNat_toNat]
    · by_cases h3 : c.toNat < 0x10000
      · simp only [utf8EncodeChar, if_neg h1, if_neg h2, if_pos h3, List.cons_append,
          List.nil_append, utf8DecodeOne]
        rw [if_neg (by omega), if_neg (by omega), if_neg (by omega), if_pos (by omega),
          if_pos (by constructor <;> constructor <;> omega)]
        have he : (0xE0 + c.toNat / 4096 - 0xE0) * 4096 + (0x80 + c.toNat / 64 % 64 - 0x80) * 64
            + (0x80 + c.toNat % 64 - 0x80) = c.toNat := by omega
        rw [he, Char.ofNat_toNat]
      · simp only [utf8EncodeChar, if_neg h1, if_neg h2, if_neg h3, List.cons_append,
          List.nil_append, utf8DecodeOne]
        rw [if_neg (by omega), if_neg (by omega), if_neg (by omega), if_neg (by omega),
          if_pos (by omega), if_pos (by refine ⟨⟨?_, ?_⟩, ⟨?_, ?_⟩, ?_, ?_⟩ <;> omega)]
        have he : (0xF0 + c.toNat / 262144 - 0xF0) * 262144
            + (0x80 + c.toNat / 4096 % 64 - 0x80) * 4096
            + (0x80 + c.toNat / 64 % 64 - 0x80) * 64 + (0x80 + c.toNat % 64 - 0x80) = c.toNat := by
          omega
        rw [he, Char.ofNat_toNat]

theorem utf8DecodeOne_rest_lt (l : List Nat) (p : Char × List Nat)
    (h : utf8DecodeOne l = some p) : p.2.length < l.length := by
  match l with
  | [] => simp [utf8DecodeOne] at h
  | b :: bs =>
    simp only [utf8DecodeOne] at h
    split at h
    · cases h; simp
    · split at h
      · exact absurd h (by simp)
      · split at h
        · split at h
          · split at h
            · cases h; simp; omega
            · exact absurd h (by simp)
          · exact absurd h (by simp)
        · split at h
          · split at h
            · split at h
              · cases h; simp; omega
              · exact absurd h (by simp)
            · exact absurd h (by simp)
          · split at h
            · split at h
              · split at h
                · cases h; simp; omega
                · exact absurd h (by simp)
              · exact absurd h (by simp)
            · exact absurd h (by simp)

theorem utf8DecodeAux_fuel (f1 : Nat) :
    ∀ f2 l, l.length ≤ f1 → l.length ≤ f2 → utf8DecodeAux f1 l = utf8DecodeAux f2 l := by
  induction f1 with
  | zero =>
    intro f2 l h1 h2
    have hl : l = [] := List.eq_nil_of_length_eq_zero (by omega)
    subst hl
    cases f2 with
    | zero => rfl
    | succ g => rfl
  | succ f1 ih =>
    intro f2 l h1 h2
    cases l with
    | nil =>
      cases f2 with
      | zero => rfl
      | succ g => rfl
    | cons b bs =>
      cases f2 with
      | zero => simp at h2
      | succ g =>
        rw [utf8DecodeAux, utf8DecodeAux]
        cases h : utf8DecodeOne (b :: bs) with
        | none => rfl
        | some p =>
          cases p with
          | mk c rest =>
            have hrest := utf8DecodeOne_rest_lt _ _ h
            simp only [List.length_cons] at hrest h1 h2
            exact congrArg (Option.map (fun cs => c :: cs)) (ih g rest (by omega) (by omega))

theorem utf8Decode_eq_of_decodeOne (l : List Nat) (c : Char) (rest : List Nat)
    (h : utf8DecodeOne l = some (c, rest)) :
    utf8Decode l = (utf8Decode rest).map (fun cs => c :: cs) := by
  cases l with
  | nil => simp [utf8DecodeOne] at h
  | cons b bs =>
    have hrest := utf8DecodeOne_rest_lt _ _ h
    simp only [List.length_cons] at hrest
    rw [utf8Decode, List.length_cons, utf8DecodeAux, h]
    exact congrArg (Option.map (fun cs => c :: cs))
      (utf8DecodeAux_fuel bs.length rest.length rest (by omega) (by omega))

theorem utf8Decode_encode (cs : List Char) : utf8Decode (utf8Encode cs) = some cs := by
  induction cs with
  | nil => rfl
  | cons c cs ih =>
    rw [utf8Encode, utf8Decode_eq_of_decodeOne _ c (utf8Encode cs)
      (utf8DecodeOne_encodeChar c _), ih]
    rfl

theorem utf8EncodeChar_lt_256 (c : Char) (b : Nat) (hb : b ∈ utf8EncodeChar c) : b < 256 := by
  have hlt : c.toNat < 1114112 := char_toNat_lt c
  unfold utf8EncodeChar at hb
  split at hb
  · simp at hb; omega
  · split at hb
    · simp at hb; omega
    · split at hb
      · simp at hb; omega
      · simp at hb; omega

theorem utf8Encode_ascii (cs : List Char) (h : ∀ c ∈ cs, c.toNat < 128) :
    utf8Encode cs = cs.map Char.toNat := by
  induction cs with
  | nil => rfl
  | cons c cs ih =>
    rw [utf8Encode, List.map_cons, ← ih (fun x hx => h x (List.mem_cons_of_mem _ hx))]
    have hc : c.toNat < 128 := h c (List.mem_cons_self _ _)
    simp [utf8EncodeChar, hc]

theorem char_toNat_ofNat (n : Nat) (h : n < 0xd800) : (Char.ofNat n).toNat = n := by
  have hv : Nat.isValidChar n := Or.inl h
  simp only [Char.ofNat, dif_pos hv]
  rfl

theorem hexVal_hexDigitChar (n : Nat) (h : n < 16) : hexVal (hexDigitChar n) = some n := by
  unfold hexDigitChar
  by_cases h10 : n < 10
  · rw [if_pos h10]
    have ht : (Char.ofNat (48 + n)).toNat = 48 + n := char_toNat_ofNat _ (by omega)
    unfold hexVal
    rw [ht, if_pos (by omega)]
    congr 1
    omega
  · rw [if_neg h10]
    have ht : (Char.ofNat (55 + n)).toNat = 55 + n := char_toNat_ofNat _ (by omega)
    unfold hexVal
    rw [ht, if_neg (by omega), if_pos (by omega)]
    congr 1
    omega

theorem hexDigitChar_toNat_lt (n : Nat) (h : n < 16) : (hexDigitChar n).toNat < 128 := by
  unfold hexDigitChar
  by_cases h10 : n < 10
  · rw [if_pos h10, char_toNat_ofNat _ (by omega)]; omega
  · rw [if_neg h10, char_toNat_ofNat _ (by omega)]; omega

theorem hexDigitChar_toNat (n : Nat) (h : n < 16) :
    (hexDigitChar n).toNat = if n < 10 then 48 + n else 55 + n := by
  unfold hexDigitChar
  by_cases h10 : n < 10
  · rw [if_pos h10, if_pos h10, char_toNat_ofNat _ (by omega)]
  · rw [if_neg h10, if_neg h10, char_toNat_ofNat _ (by omega)]

theorem unreserved_facts (b : Nat) (h : isUnreservedByte b = true) :
    b < 128 ∧ b ≠ 37 ∧ b ≠ 43 ∧ b ≠ 38 ∧ b ≠ 61 ∧ b ≠ 10 ∧ b ≠ 32 := by
  simp [isUnreservedByte] at h
  omega

theorem charOfByte_ne (b t : Nat) (hlt : b < 128) (ht : t < 128) (hne : b ≠ t) :
    Char.ofNat b ≠ Char.ofNat t := by
  intro heq
  have h1 := congrArg Char.toNat heq
  rw [char_toNat_ofNat _ (by omega), char_toNat_ofNat _ (by omega)] at h1
  exact hne h1

theorem queryUnescapeChars_other (c : Char) (cs : List Char) (h1 : ¬ (c = '%'))
    (h2 : ¬ (c = '+')) :
    queryUnescapeChars (c :: cs) = (queryUnescapeChars cs).map (fun r => utf8EncodeChar c ++ r) := by
  cases cs with
  | nil => simp [queryUnescapeChars, h1, h2]
  | cons d ds =>
    cases ds with
    | nil => simp [queryUnescapeChars, h1, h2]
    | cons e es => simp [queryUnescapeChars, h1, h2]

theorem queryUnescapeChars_percent (h1 h2 : Char) (cs : List Char) (a b : Nat)
    (ha : hexVal h1 = some a) (hb : hexVal h2 = some b) :
    queryUnescapeChars ('%' :: h1 :: h2 :: cs) =
      (queryUnescapeChars cs).map (fun r => (16 * a + b) :: r) := by
  simp [queryUnescapeChars, ha, hb]

theorem queryUnescape_canonEscapeBytes (bs : List Nat) (hb : ∀ b ∈ bs, b < 256) :
    queryUnescapeChars (canonEscapeBytes bs) = some bs := by
  induction bs with
  | nil => rfl
  | cons b bs ih =>
    have hb0 : b < 256 := hb b (List.mem_cons_self _ _)
    have ih' := ih (fun x hx => hb x (List.mem_cons_of_mem _ hx))
    rw [canonEscapeBytes]
    by_cases hu : isUnreservedByte b
    · rw [if_pos hu]
      obtain ⟨hlt, hne37, hne43, -, -, -, -⟩ := unreserved_facts b hu
      have ht : (Char.ofNat b).toNat = b := char_toNat_ofNat _ (by omega)
      have hnp : ¬ (Char.ofNat b = '%') := charOfByte_ne b 37 hlt (by omega) hne37
      have hns : ¬ (Char.ofNat b = '+') := charOfByte_ne b 43 hlt (by omega) hne43
      rw [List.cons_append, List.nil_append, queryUnescapeChars_other _ _ hnp hns, ih']
      have he : utf8EncodeChar (Char.ofNat b) = [b] := by
        simp [utf8EncodeChar, ht, hlt]
      rw [he]
      rfl
    · rw [if_neg hu]
      rw [List.cons_append, List.cons_append, List.cons_append, List.nil_append,
        queryUnescapeChars_percent _ _ _ _ _ (hexVal_hexDigitChar (b / 16) (by omega))
          (hexVal_hexDigitChar (b % 16) (by omega)), ih']
      have hbb : 16 * (b / 16) + b % 16 = b := by omega
      rw [hbb]
      rfl

theorem canonEscapeBytes_chars (bs : List Nat) (hb : ∀ b ∈ bs, b < 256) :
    ∀ c ∈ canonEscapeBytes bs, c.toNat < 128 ∧ c.toNat ≠ 38 ∧ c.toNat ≠ 61 ∧ c.toNat ≠ 10 := by
  induction bs with
  | nil => intro c hc; simp [canonEscapeBytes] at hc
  | cons b bs ih =>
    intro c hc
    have hb0 : b < 256 := hb b (List.mem_cons_self _ _)
    have ih' := ih (fun x hx => hb x (List.mem_cons_of_mem _ hx))
    rw [canonEscapeBytes] at hc
    by_cases hu : isUnreservedByte b
    · rw [if_pos hu] at hc
      rcases List.mem_append.mp hc with hc | hc
      · obtain ⟨hlt, h37, h43, h38, h61, h10, h32⟩ := unreserved_facts b hu
        have hcb : c = Char.ofNat b := by simpa using hc
        rw [hcb, char_toNat_ofNat _ (by omega)]
        exact ⟨hlt, h38, h61, h10⟩
      · exact ih' c hc
    · rw [if_neg hu] at hc
      rcases List.mem_append.mp hc with hc | hc
      · have h16a : b / 16 < 16 := by omega
        have h16b : b % 16 < 16 := by omega
        rcases (by simpa using hc : c = '%' ∨ c = hexDigitChar (b / 16) ∨
            c = hexDigitChar (b % 16)) with hcc | hcc | hcc
        · rw [hcc]; refine ⟨by decide, by decide, by decide, by decide⟩
        · rw [hcc, hexDigitChar_toNat _ h16a]
          constructor
          · split <;> omega
          · refine ⟨?_, ?_, ?_⟩ <;> split <;> omega
        · rw [hcc, hexDigitChar_toNat _ h16b]
          constructor
          · split <;> omega
          · refine ⟨?_, ?_, ?_⟩ <;> split <;> omega
      · exact ih' c hc

theorem plusTo20Chars_append (l1 l2 : List Char) :
    plusTo20Chars (l1 ++ l2) = plusTo20Chars l1 ++ plusTo20Chars l2 := by
  induction l1 with
  | nil => rfl
  | cons c cs ih => simp [plusTo20Chars, ih]

theorem plusTo20Chars_queryEscapeBytes (bs : List Nat) (hb : ∀ b ∈ bs, b < 256) :
    plusTo20Chars (queryEscapeBytes bs) = canonEscapeBytes bs := by
  induction bs with
  | nil => rfl
  | cons b bs ih =>
    have hb0 : b < 256 := hb b (List.mem_cons_self _ _)
    have ih' := ih (fun x hx => hb x (List.mem_cons_of_mem _ hx))
    rw [queryEscapeBytes, canonEscapeBytes, plusTo20Chars_append, ih']
    congr 1
    by_cases hu : isUnreservedByte b
    · rw [if_pos hu, if_pos hu]
      obtain ⟨hlt, -, h43, -, -, -, -⟩ := unreserved_facts b hu
      have hns : ¬ (Char.ofNat b = '+') := charOfByte_ne b 43 hlt (by omega) h43
      simp [plusTo20Chars, hns]
    · rw [if_neg hu, if_neg hu]
      by_cases h32 : b = 32
      · subst h32
        rw [if_pos rfl]
        rfl
      · rw [if_neg h32]
        have hp : ¬ (('%' : Char) = '+') := by decide
        have h16a : b / 16 < 16 := by omega
        have h16b : b % 16 < 16 := by omega
        have hh1 : ¬ (hexDigitChar (b / 16) = '+') := by
          intro heq
          have := congrArg Char.toNat heq
          rw [hexDigitChar_toNat _ h16a] at this
          revert this
          split <;> intro h' <;> simp at h' <;> omega
        have hh2 : ¬ (hexDigitChar (b % 16) = '+') := by
          intro heq
          have := congrArg Char.toNat heq
          rw [hexDigitChar_toNat _ h16b] at this
          revert this
          split <;> intro h' <;> simp at h' <;> omega
        simp [plusTo20Chars, hp, hh1, hh2]

theorem utf8Encode_lt_256 (cs : List Char) : ∀ b ∈ utf8Encode cs, b < 256 := by
  induction cs with
  | nil => intro b hb; simp [utf8Encode] at hb
  | cons c cs ih =>
    intro b hb
    rw [utf8Encode] at hb
    rcases List.mem_append.mp hb with hb | hb
    · exact utf8EncodeChar_lt_256 c b hb
    · exact ih b hb

theorem joinAmp_single (x : List Char) : joinAmp [x] = x := rfl

theorem joinAmp_cons2 (x y : List Char) (xs : List (List Char)) :
    joinAmp (x :: y :: xs) = x ++ '&' :: joinAmp (y :: xs) := rfl

theorem plusTo20Chars_amp (x y : List Char) :
    plusTo20Chars (x ++ '&' :: y) = plusTo20Chars x ++ '&' :: plusTo20Chars y := by
  rw [plusTo20Chars_append]
  congr 1

theorem plusTo20Chars_joinAmp_pieces (l : List (String × String)) :
    plusTo20Chars (joinAmp (l.map piece)) = joinAmp (l.map canonPiece) := by
  have hpiece : ∀ kv : String × String, plusTo20Chars (piece kv) = canonPiece kv := by
    intro kv
    rw [piece, canonPiece, plusTo20Chars_append]
    rw [plusTo20Chars_queryEscapeBytes _ (utf8Encode_lt_256 _)]
    congr 1
    rw [show ('=' :: queryEscapeBytes (utf8Encode kv.2.data)) =
      ['='] ++ queryEscapeBytes (utf8Encode kv.2.data) from rfl, plusTo20Chars_append,
      plusTo20Chars_queryEscapeBytes _ (utf8Encode_lt_256 _)]
    rfl
  induction l with
  | nil => rfl
  | cons kv l ih =>
    cases l with
    | nil =>
      simp only [List.map_cons, List.map_nil, joinAmp_single, hpiece]
    | cons kv2 l2 =>
      simp only [List.map_cons] at ih ⊢
      rw [joinAmp_cons2, joinAmp_cons2, plusTo20Chars_amp, hpiece, ih]

/-- Replacing '+' with "%20" in the Encode output yields exactly the canonical
query string. -/
theorem plusTo20_encodeValues (p : Values) : plusTo20 (encodeValues p) = canonicalQuery p := by
  rw [plusTo20, encodeValues, canonicalQuery, canonicalQueryChars]
  exact congrArg String.mk (plusTo20Chars_joinAmp_pieces (sortPairs p))

theorem string_mk_data (s : String) : String.mk s.data = s := rfl

theorem splitAmp_no_sep (xs : List Char) (h : '&' ∉ xs) : splitAmp xs = [xs] := by
  induction xs with
  | nil => rfl
  | cons c cs ih =>
    have hc : ¬ (c = '&') := fun hcc => h (hcc ▸ List.mem_cons_self _ _)
    have ih' := ih (fun hm => h (List.mem_cons_of_mem _ hm))
    simp only [splitAmp, ih', if_neg hc]
    rfl

theorem splitAmp_sep (xs ys : List Char) (h : '&' ∉ xs) :
    splitAmp (xs ++ '&' :: ys) = xs :: splitAmp ys := by
  induction xs with
  | nil =>
    simp [splitAmp]
  | cons c cs ih =>
    have hc : ¬ (c = '&') := fun hcc => h (hcc ▸ List.mem_cons_self _ _)
    have ih' := ih (fun hm => h (List.mem_cons_of_mem _ hm))
    simp [splitAmp, hc, ih']

theorem cutEq_append (xs ys : List Char) (h : '=' ∉ xs) :
    cutEq (xs ++ '=' :: ys) = (xs, ys) := by
  induction xs with
  | nil => simp [cutEq]
  | cons c cs ih =>
    have hc : ¬ (c = '=') := fun hcc => h (hcc ▸ List.mem_cons_self _ _)
    have ih' := ih (fun hm => h (List.mem_cons_of_mem _ hm))
    simp [cutEq, if_neg hc, ih']

theorem eq_not_mem_canonEscapeBytes (cs : List Char) :
    '=' ∉ canonEscapeBytes (utf8Encode cs) := by
  intro hm
  have := (canonEscapeBytes_chars _ (utf8Encode_lt_256 cs)) _ hm
  exact this.2.2.1 rfl

theorem amp_not_mem_canonEscapeBytes (cs : List Char) :
    '&' ∉ canonEscapeBytes (utf8Encode cs) := by
  intro hm
  have := (canonEscapeBytes_chars _ (utf8Encode_lt_256 cs)) _ hm
  exact this.2.1 rfl

theorem parseSegment_canonPiece (kv : String × String) :
    parseSegment (canonPiece kv) = some kv := by
  rw [parseSegment, canonPiece, cutEq_append _ _ (eq_not_mem_canonEscapeBytes _)]
  rw [queryUnescape_canonEscapeBytes _ (utf8Encode_lt_256 _)]
  rw [Option.some_bind, utf8Decode_encode]
  rw [Option.some_bind, queryUnescape_canonEscapeBytes _ (utf8Encode_lt_256 _)]
  rw [Option.some_bind, utf8Decode_encode]
  rfl

theorem canonPiece_ne_nil (kv : String × String) : canonPiece kv ≠ [] := by
  rw [canonPiece]
  intro h
  have := congrArg List.length h
  simp at this

theorem amp_not_mem_canonPiece (kv : String × String) : '&' ∉ canonPiece kv := by
  rw [canonPiece]
  intro hm
  rcases List.mem_append.mp hm with hm | hm
  · exact amp_not_mem_canonEscapeBytes _ hm
  · rcases List.mem_cons.mp hm with hm | hm
    · cases hm
    · exact amp_not_mem_canonEscapeBytes _ hm

theorem parseSegments_joinAmp (l : List (String × String)) :
    parseSegments (splitAmp (joinAmp (l.map canonPiece))) = some l := by
  induction l with
  | nil =>
    rfl
  | cons kv l ih =>
    cases l with
    | nil =>
      rw [List.map_cons, List.map_nil, joinAmp_single,
        splitAmp_no_sep _ (amp_not_mem_canonPiece kv), parseSegments,
        if_neg (canonPiece_ne_nil kv), parseSegment_canonPiece]
      rfl
    | cons kv2 l2 =>
      simp only [List.map_cons] at ih ⊢
      rw [joinAmp_cons2, splitAmp_sep _ _ (amp_not_mem_canonPiece kv),
        parseSegments, if_neg (canonPiece_ne_nil kv), parseSegment_canonPiece, ih]
      rfl

theorem getValues_cons (kv : String × String) (p : Values) (k : String) :
    getValues (kv :: p) k = if kv.1 = k then kv.2 :: getValues p k else getValues p k := rfl

theorem getValues_insertPair (x : String × String) (l : Values) (k : String) :
    getValues (insertPair x l) k = getValues (x :: l) k := by
  induction l with
  | nil => rfl
  | cons y l ih =>
    rw [insertPair]
    by_cases hle : x.1 ≤ y.1
    · rw [if_pos hle]
    · rw [if_neg hle]
      have hne : ¬ (y.1 = x.1) := fun he => hle (le_of_eq he.symm)
      by_cases hyk : y.1 = k
      · have hxk : ¬ (x.1 = k) := fun he => hne (hyk.symm ▸ he ▸ rfl)
        simp only [getValues_cons, ih, if_pos hyk, if_neg hxk]
      · by_cases hxk : x.1 = k
        · simp only [getValues_cons, ih, if_neg hyk, if_pos hxk]
        · simp only [getValues_cons, ih, if_neg hyk, if_neg hxk]

theorem getValues_sortPairs (p : Values) (k : String) :
    getValues (sortPairs p) k = getValues p k := by
  induction p with
  | nil => rfl
  | cons x p ih =>
    rw [sortPairs, getValues_insertPair, getValues_cons, getValues_cons, ih]

theorem sha256_length (msg : List Nat) : (sha256 msg).length = 32 := by
  simp [sha256, wordBytes]

theorem hmacSha256_length (key msg : List Nat) : (hmacSha256 key msg).length = 32 := by
  rw [hmacSha256]
  exact sha256_length _

theorem base64Chars_length (l : List Nat) :
    (base64Chars l).length = 4 * ((l.length + 2) / 3) := by
  match l with
  | [] => rfl
  | [b1] => simp [base64Chars]
  | [b1, b2] => simp [base64Chars]
  | b1 :: b2 :: b3 :: rest =>
    rw [base64Chars]
    simp only [List.length_cons, base64Chars_length rest]
    omega

theorem base64Char_toNat_lt (n : Nat) : (base64Char n).toNat < 128 := by
  rw [base64Char]
  by_cases h1 : n < 26
  · rw [if_pos h1, char_toNat_ofNat _ (by omega)]; omega
  · rw [if_neg h1]
    by_cases h2 : n < 52
    · rw [if_pos h2, char_toNat_ofNat _ (by omega)]; omega
    · rw [if_neg h2]
      by_cases h3 : n < 62
      · rw [if_pos h3, char_toNat_ofNat _ (by omega)]; omega
      · rw [if_neg h3]
        by_cases h4 : n = 62
        · rw [if_pos h4]; decide
        · rw [if_neg h4]; decide

theorem base64Chars_toNat_lt (l : List Nat) : ∀ c ∈ base64Chars l, c.toNat < 128 := by
  match l with
  | [] => intro c hc; simp [base64Chars] at hc
  | [b1] =>
    intro c hc
    rcases (by simpa [base64Chars] using hc : c = base64Char (b1 / 4) ∨
      c = base64Char (b1 % 4 * 16) ∨ c = '=' ∨ c = '=') with h | h | h | h <;>
      rw [h] <;> first | exact base64Char_toNat_lt _ | decide
  | [b1, b2] =>
    intro c hc
    rcases (by simpa [base64Chars] using hc : c = base64Char (b1 / 4) ∨
      c = base64Char (b1 % 4 * 16 + b2 / 16) ∨ c = base64Char (b2 % 16 * 4) ∨ c = '=') with
      h | h | h | h <;> rw [h] <;> first | exact base64Char_toNat_lt _ | decide
  | b1 :: b2 :: b3 :: rest =>
    intro c hc
    rw [base64Chars] at hc
    rcases (by simpa using hc : c = base64Char (b1 / 4) ∨
      c = base64Char (b1 % 4 * 16 + b2 / 16) ∨ c = base64Char (b2 % 16 * 4 + b3 / 64) ∨
      c = base64Char (b3 % 64) ∨ c ∈ base64Chars rest) with h | h | h | h | h
    · rw [h]; exact base64Char_toNat_lt _
    · rw [h]; exact base64Char_toNat_lt _
    · rw [h]; exact base64Char_toNat_lt _
    · rw [h]; exact base64Char_toNat_lt _
    · exact base64Chars_toNat_lt rest c h

theorem natDigitsAux_fuel (fuel1 fuel2 n : Nat) (h1 : n ≤ fuel1) (h2 : n ≤ fuel2) :
    natDigitsAux fuel1 n = natDigitsAux fuel2 n := by
  induction fuel1 generalizing fuel2 n with
  | zero =>
    have hn : n = 0 := by omega
    cases fuel2 with
    | zero => rfl
    | succ f2 =>
      rw [hn]
      rfl
  | succ f1 ih =>
    cases fuel2 with
    | zero =>
      have hn : n = 0 := by omega
      rw [hn]
      rfl
    | succ f2 =>
      rw [natDigitsAux, natDigitsAux]
      by_cases h10 : n < 10
      · rw [if_pos h10, if_pos h10]
      · rw [if_neg h10, if_neg h10, ih f2 (n / 10) (by omega) (by omega)]

theorem natDigits_step (n : Nat) :
    natDigits n = if n < 10 then [digitChar n]
      else natDigits (n / 10) ++ [digitChar (n % 10)] := by
  rw [natDigits]
  cases hn : n with
  | zero => rfl
  | succ m =>
    rw [natDigitsAux]
    by_cases h10 : m + 1 < 10
    · rw [if_pos h10, if_pos h10]
    · rw [if_neg h10, if_neg h10, natDigits,
        natDigitsAux_fuel m ((m + 1) / 10) ((m + 1) / 10) (by omega) (by omega)]

theorem getLastD_cons {α : Type} (x d : α) (xs : List α) :
    ((x :: xs).getLast?).getD d = (xs.getLast?).getD x := by
  cases xs with
  | nil => rfl
  | cons y ys =>
    rw [List.getLast?_cons_cons]
    cases h : (y :: ys).getLast? with
    | none => simp at h
    | some z => rfl

theorem removeAttribute_foldl (a : Attribute) (l : List Attribute) (acc : List Attribute)
    (rem : Attribute) :
    l.foldl (fun acc attr => if keptAttr a attr then (acc.1 ++ [attr], acc.2) else (acc.1, attr))
      (acc, rem) =
    (acc ++ l.filter (keptAttr a),
      ((l.filter (fun attr => ! keptAttr a attr)).getLast?).getD rem) := by
  induction l generalizing acc rem with
  | nil => simp
  | cons attr rest ih =>
    rw [List.foldl_cons]
    by_cases hk : keptAttr a attr
    · rw [if_pos hk, ih]
      simp [List.filter_cons, hk]
    · rw [if_neg hk, ih]
      simp only [List.filter_cons]
      have hk' : (! keptAttr a attr) = true := by simp [Bool.not_eq_true'] at hk ⊢; exact hk
      rw [if_neg (by simp_all), if_pos hk', getLastD_cons]

/-- C10: RemoveAttribute keeps an attribute exactly when both its name and its
value differ from the target's; every attribute sharing just the name or just
the value is dropped, and the returned attribute is the last dropped one, or
the zero Attribute when none was dropped. -/
theorem claim_C10 (i : Item) (a : Attribute) :
    (∀ attr, keptAttr a attr = true ↔ (attr.Name ≠ a.Name ∧ attr.Value ≠ a.Value)) ∧
    (removeAttribute i a).1.Name = i.Name ∧
    (removeAttribute i a).1.Attributes = i.Attributes.filter (keptAttr a) ∧
    (removeAttribute i a).2 =
      ((i.Attributes.filter (fun attr => ! keptAttr a attr)).getLast?).getD
        ⟨"", "", false⟩ := by
  refine ⟨?_, ?_, ?_, ?_⟩
  · intro attr
    simp [keptAttr]
  · rw [removeAttribute]
  · rw [removeAttribute]
    simp only [removeAttribute_foldl a i.Attributes [] ⟨"", "", false⟩]
    rfl
  · rw [removeAttribute]
    simp only [removeAttribute_foldl a i.Attributes [] ⟨"", "", false⟩]

/-- C2: on a non-200 response whose body decodes as an error envelope, post
fails with a SimpleDBError carrying the code, message and request id of the
first entry only, even when several entries are present; with an empty
envelope it fails with the generic error built from the HTTP status text. -/
theorem claim_C2 {δ : Type} (statusCode : Nat) (status : String) (e0 : SimpleDBError)
    (rest : List SimpleDBError) (rid rid2 : String) (h : statusCode ≠ 200) :
    postReceive statusCode status (Except.ok (⟨e0 :: rest, rid⟩ : Response) : Except δ Response) =
      some (.serviceError ⟨e0.Code, e0.Message, e0.RequestId⟩) ∧
    postReceive statusCode status (Except.ok (⟨[], rid2⟩ : Response) : Except δ Response) =
      some (.statusError status) := by
  constructor
  · simp [postReceive, h, handleNon200]
  · simp [postReceive, h, handleNon200]

theorem claim_C2_witness :
    ((403 : Nat) ≠ 200) ∧
    postReceive (δ := String) 403 "403 Forbidden"
      (Except.ok ⟨[⟨"InvalidParameterValue", "bad name", "r-1"⟩,
        ⟨"MissingParameter", "second", "r-2"⟩], "rid"⟩) =
      some (.serviceError ⟨"InvalidParameterValue", "bad name", "r-1"⟩) ∧
    postReceive (δ := String) 403 "403 Forbidden" (Except.ok ⟨[], "rid"⟩) =
      some (.statusError "403 Forbidden") := by
  refine ⟨by decide, ?_, ?_⟩
  · exact (claim_C2 403 "403 Forbidden" ⟨"InvalidParameterValue", "bad name", "r-1"⟩
      [⟨"MissingParameter", "second", "r-2"⟩] "rid" "rid" (by decide)).1
  · exact (claim_C2 403 "403 Forbidden" ⟨"InvalidParameterValue", "bad name", "r-1"⟩
      [⟨"MissingParameter", "second", "r-2"⟩] "rid" "rid" (by decide)).2

/-- C4: on a non-200 response whose body fails to decode as an error envelope,
post returns the decode failure itself, and the result is independent of the
HTTP status, so the original non-200 status information is discarded. -/
theorem claim_C4 {δ : Type} (statusCode : Nat) (status status2 : String) (e : δ)
    (h : statusCode ≠ 200) :
    postReceive statusCode status (Except.error e : Except δ Response) =
      some (.decodeFailure e) ∧
    handleNon200 status (Except.error e : Except δ Response) =
      handleNon200 status2 (Except.error e : Except δ Response) := by
  constructor
  · rw [postReceive, if_pos h]
    rfl
  · rfl

theorem claim_C4_witness :
    ((500 : Nat) ≠ 200) ∧
    postReceive 500 "500 Internal Server Error"
      (Except.error "XML syntax error on line 1" : Except String Response) =
      some (.decodeFailure "XML syntax error on line 1") ∧
    handleNon200 "500 Internal Server Error"
      (Except.error "XML syntax error on line 1" : Except String Response) =
      handleNon200 "403 Forbidden"
        (Except.error "XML syntax error on line 1" : Except String Response) := by
  refine ⟨by decide, ?_, ?_⟩
  · exact (claim_C4 500 "500 Internal Server Error" "403 Forbidden"
      "XML syntax error on line 1" (by decide)).1
  · exact (claim_C4 500 "500 Internal Server Error" "403 Forbidden"
      "XML syntax error on line 1" (by decide)).2

theorem attrFieldsFrom_congr (l1 l2 : List Attribute)
    (h : l1.map (fun a => (a.Name, a.Value)) = l2.map (fun a => (a.Name, a.Value))) :
    ∀ k, attrFieldsFrom k l1 = attrFieldsFrom k l2 := by
  induction l1 generalizing l2 with
  | nil =>
    cases l2 with
    | nil => intro k; rfl
    | cons b l2 => simp at h
  | cons a l1 ih =>
    cases l2 with
    | nil => simp at h
    | cons b l2 =>
      simp only [List.map_cons, List.cons.injEq, Prod.mk.injEq] at h
      intro k
      rw [attrFieldsFrom, attrFieldsFrom, h.1.1, h.1.2, ih l2 h.2 (k + 1)]

theorem batchAttrFieldsFrom_congr (l1 l2 : List Attribute)
    (h : l1.map (fun a => (a.Name, a.Value)) = l2.map (fun a => (a.Name, a.Value))) :
    ∀ k j, batchAttrFieldsFrom k j l1 = batchAttrFieldsFrom k j l2 := by
  induction l1 generalizing l2 with
  | nil =>
    cases l2 with
    | nil => intro k j; rfl
    | cons b l2 => simp at h
  | cons a l1 ih =>
    cases l2 with
    | nil => simp at h
    | cons b l2 =>
      simp only [List.map_cons, List.cons.injEq, Prod.mk.injEq] at h
      intro k j
      rw [batchAttrFieldsFrom, batchAttrFieldsFrom, h.1.1, h.1.2, ih l2 h.2 k (j + 1)]

theorem itemFieldsFrom_congr (l1 l2 : List Item)
    (h : l1.map (fun it => (it.Name, it.Attributes.map (fun a => (a.Name, a.Value)))) =
      l2.map (fun it => (it.Name, it.Attributes.map (fun a => (a.Name, a.Value))))) :
    ∀ k, itemFieldsFrom k l1 = itemFieldsFrom k l2 := by
  induction l1 generalizing l2 with
  | nil =>
    cases l2 with
    | nil => intro k; rfl
    | cons b l2 => simp at h
  | cons a l1 ih =>
    cases l2 with
    | nil => simp at h
    | cons b l2 =>
      simp only [List.map_cons, List.cons.injEq, Prod.mk.injEq] at h
      intro k
      rw [itemFieldsFrom, itemFieldsFrom, h.1.1,
        batchAttrFieldsFrom_congr _ _ h.1.2 k 1, ih l2 h.2 (k + 1)]

/-- C8: the PutAttributes and BatchPutAttributes parameter builds depend only
on the item names and the attributes' names and values: two inputs that agree
on those but differ in Replace flags produce identical request parameters, so
the Replace flag never reaches the wire. -/
theorem claim_C8 (sdb : SimpleDB) (t : GoTime) (domain : String) :
    (∀ i1 i2 : Item, i1.Name = i2.Name →
      i1.Attributes.map (fun a => (a.Name, a.Value)) =
        i2.Attributes.map (fun a => (a.Name, a.Value)) →
      putAttributesBuild sdb t domain i1 = putAttributesBuild sdb t domain i2) ∧
    (∀ items1 items2 : List Item,
      items1.map (fun it => (it.Name, it.Attributes.map (fun a => (a.Name, a.Value)))) =
        items2.map (fun it => (it.Name, it.Attributes.map (fun a => (a.Name, a.Value)))) →
      batchPutAttributesBuild sdb t domain items1 = batchPutAttributesBuild sdb t domain items2) := by
  constructor
  · intro i1 i2 hn ha
    rw [putAttributesBuild, putAttributesBuild, hn, attrFieldsFrom_congr _ _ ha 1]
  · intro items1 items2 h
    rw [batchPutAttributesBuild, batchPutAttributesBuild, itemFieldsFrom_congr _ _ h 1]

theorem claim_C8_witness :
    putAttributesBuild (mkSimpleDB "AK" "SK" "host") ⟨2014, 1, 2, 3, 4, 5⟩ "dom"
        ⟨"item", [⟨"color", "red", false⟩]⟩ =
      putAttributesBuild (mkSimpleDB "AK" "SK" "host") ⟨2014, 1, 2, 3, 4, 5⟩ "dom"
        ⟨"item", [⟨"color", "red", true⟩]⟩ ∧
    batchPutAttributesBuild (mkSimpleDB "AK" "SK" "host") ⟨2014, 1, 2, 3, 4, 5⟩ "dom"
        [⟨"item", [⟨"color", "red", false⟩]⟩] =
      batchPutAttributesBuild (mkSimpleDB "AK" "SK" "host") ⟨2014, 1, 2, 3, 4, 5⟩ "dom"
        [⟨"item", [⟨"color", "red", true⟩]⟩] := by
  constructor
  · exact (claim_C8 (mkSimpleDB "AK" "SK" "host") ⟨2014, 1, 2, 3, 4, 5⟩ "dom").1
      ⟨"item", [⟨"color", "red", false⟩]⟩ ⟨"item", [⟨"color", "red", true⟩]⟩ rfl rfl
  · exact (claim_C8 (mkSimpleDB "AK" "SK" "host") ⟨2014, 1, 2, 3, 4, 5⟩ "dom").2
      [⟨"item", [⟨"color", "red", false⟩]⟩] [⟨"item", [⟨"color", "red", true⟩]⟩] rfl

/-- C6: resetParameters yields exactly the four protocol-fixed fields plus the
formatted UTC timestamp, whatever the previous parameter map held, and every
public action method builds its parameters on top of that reset state. -/
theorem claim_C6 (sdb : SimpleDB) (t : GoTime) :
    (resetParameters sdb t).p =
      [("AWSAccessKeyId", sdb.accessKey), ("SignatureMethod", "HmacSHA256"),
        ("SignatureVersion", "2"), ("Version", "2009-04-15"),
        ("Timestamp", pad4 t.year ++ "-" ++ pad2 t.month ++ "-" ++ pad2 t.day ++ "T" ++
          pad2 t.hour ++ ":" ++ pad2 t.minute ++ ":" ++ pad2 t.second ++ "+00:00")] ∧
    (∀ sdb2 : SimpleDB, sdb2.accessKey = sdb.accessKey →
      (resetParameters sdb2 t).p = (resetParameters sdb t).p) ∧
    (listDomainsBuild sdb t).p = addValue (resetParameters sdb t).p "Action" "ListDomains" ∧
    (∀ name, (domainMetadataBuild sdb t name).p =
      addValue (addValue (resetParameters sdb t).p "Action" "DomainMetadata")
        "DomainName" name) ∧
    (∀ name, (createDomainBuild sdb t name).p =
      addValue (addValue (resetParameters sdb t).p "Action" "CreateDomain") "DomainName" name) ∧
    (∀ name, (deleteDomainBuild sdb t name).p =
      addValue (addValue (resetParameters sdb t).p "Action" "DeleteDomain") "DomainName" name) ∧
    (∀ domain i, (putAttributesBuild sdb t domain i).p =
      addValue (addValue (addValue (resetParameters sdb t).p "Action" "PutAttributes")
        "DomainName" domain) "ItemName" i.Name ++ attrFieldsFrom 1 i.Attributes) ∧
    (∀ domain items, (batchPutAttributesBuild sdb t domain items).p =
      addValue (addValue (resetParameters sdb t).p "Action" "BatchPutAttributes")
        "DomainName" domain ++ itemFieldsFrom 1 items) ∧
    (∀ domain itemName, (getAttributesBuild sdb t domain itemName).p =
      addValue (addValue (addValue (resetParameters sdb t).p "Action" "GetAttributes")
        "DomainName" domain) "ItemName" itemName) ∧
    (∀ domain itemName, (deleteItemBuild sdb t domain itemName).p =
      addValue (addValue (addValue (resetParameters sdb t).p "Action" "DeleteAttributes")
        "DomainName" domain) "ItemName" itemName) ∧
    (∀ q, (selectBuild sdb t q).p =
      addValue (addValue (resetParameters sdb t).p "Action" "Select") "SelectExpression" q) := by
  refine ⟨rfl, ?_, rfl, fun _ => rfl, fun _ => rfl, fun _ => rfl, fun _ _ => rfl,
    fun _ _ => rfl, fun _ _ => rfl, fun _ _ => rfl, fun _ => rfl⟩
  intro sdb2 hak
  rw [resetParameters, resetParameters, hak]

theorem claim_C6_witness :
    (resetParameters (mkSimpleDB "AK" "SK" "host") ⟨2014, 1, 2, 3, 4, 5⟩).p =
      [("AWSAccessKeyId", "AK"), ("SignatureMethod", "HmacSHA256"), ("SignatureVersion", "2"),
        ("Version", "2009-04-15"), ("Timestamp", "2014-01-02T03:04:05+00:00")] ∧
    (resetParameters { mkSimpleDB "AK" "SK" "host" with
        p := [("Leftover", "stale")] } ⟨2014, 1, 2, 3, 4, 5⟩).p =
      (resetParameters (mkSimpleDB "AK" "SK" "host") ⟨2014, 1, 2, 3, 4, 5⟩).p := by
  constructor
  · rw [(claim_C6 (mkSimpleDB "AK" "SK" "host") ⟨2014, 1, 2, 3, 4, 5⟩).1]
    decide
  · exact (claim_C6 (mkSimpleDB "AK" "SK" "host") ⟨2014, 1, 2, 3, 4, 5⟩).2.1
      { mkSimpleDB "AK" "SK" "host" with p := [("Leftover", "stale")] } rfl

theorem getAttributesResponse_bijective :
    Function.Bijective (fun r : GetAttributesResponse => r.Attributes) := by
  constructor
  · intro r1 r2 h
    cases r1
    cases r2
    simpa using h
  · intro l
    exact ⟨⟨l⟩, rfl⟩

theorem selectResponse_bijective :
    Function.Bijective (fun r : SelectResponse => r.Items) := by
  constructor
  · intro r1 r2 h
    cases r1
    cases r2
    simpa using h
  · intro l
    exact ⟨⟨l⟩, rfl⟩

/-- C7 counterexample: the get-attributes and select result structures are in
bijection with their attribute and item lists alone, so neither carries a
ResponseMetadata component, contradicting the claim that every action's result
structure includes one. -/
theorem claim_C7_counterexample :
    Function.Bijective (fun r : GetAttributesResponse => r.Attributes) ∧
    Function.Bijective (fun r : SelectResponse => r.Items) :=
  ⟨getAttributesResponse_bijective, selectResponse_bijective⟩

/-- C7 amended: ResponseMetadata consists exactly of RequestId and BoxUsage,
and every action result structure except GetAttributesResponse and
SelectResponse carries a ResponseMetadata component that ranges over all
metadata values; those two consist solely of their attribute and item lists. -/
theorem claim_C7 :
    Function.Bijective (fun m : ResponseMetadata => (m.RequestId, m.BoxUsage)) ∧
    Function.Surjective CreateDomainResponse.ResponseMetadata ∧
    Function.Surjective DeleteDomainResponse.ResponseMetadata ∧
    Function.Surjective ListDomainsResponse.ResponseMetadata ∧
    Function.Surjective DomainMetadataResponse.ResponseMetadata ∧
    Function.Surjective PutAttributesResponse.ResponseMetadata ∧
    Function.Surjective DeleteAttributesResponse.ResponseMetadata ∧
    Function.Bijective (fun r : GetAttributesResponse => r.Attributes) ∧
    Function.Bijective (fun r : SelectResponse => r.Items) := by
  refine ⟨⟨?_, ?_⟩, ?_, ?_, ?_, ?_, ?_, ?_, getAttributesResponse_bijective,
    selectResponse_bijective⟩
  · intro m1 m2 h
    cases m1
    cases m2
    simpa using h
  · intro pr
    exact ⟨⟨pr.1, pr.2⟩, rfl⟩
  · intro m
    exact ⟨⟨m⟩, rfl⟩
  · intro m
    exact ⟨⟨m⟩, rfl⟩
  · intro m
    exact ⟨⟨[], m⟩, rfl⟩
  · intro m
    exact ⟨⟨0, 0, 0, 0, 0, 0, 0, m⟩, rfl⟩
  · intro m
    exact ⟨⟨m⟩, rfl⟩
  · intro m
    exact ⟨⟨m⟩, rfl⟩

theorem natDigits_digits (n : Nat) : ∀ c ∈ natDigits n, 48 ≤ c.toNat ∧ c.toNat ≤ 57 := by
  induction n using Nat.strong_induction_on with
  | _ n ih =>
    intro c hc
    rw [natDigits_step] at hc
    by_cases h10 : n < 10
    · rw [if_pos h10] at hc
      have hcd : c = digitChar n := by simpa using hc
      rw [hcd, digitChar, char_toNat_ofNat _ (by omega)]
      omega
    · rw [if_neg h10] at hc
      rcases List.mem_append.mp hc with hc | hc
      · exact ih (n / 10) (by omega) c hc
      · have hcd : c = digitChar (n % 10) := by simpa using hc
        rw [hcd, digitChar, char_toNat_ofNat _ (by omega)]
        omega

theorem natDigits_ne_nil (n : Nat) : natDigits n ≠ [] := by
  rw [natDigits_step]
  by_cases h10 : n < 10
  · rw [if_pos h10]
    simp
  · rw [if_neg h10]
    simp

theorem digitChar_inj (m n : Nat) (hm : m < 10) (hn : n < 10) (h : digitChar m = digitChar n) :
    m = n := by
  have := congrArg Char.toNat h
  rw [digitChar, digitChar, char_toNat_ofNat _ (by omega), char_toNat_ofNat _ (by omega)] at this
  omega

theorem natDigits_inj (m : Nat) : ∀ n, natDigits m = natDigits n → m = n := by
  induction m using Nat.strong_induction_on with
  | _ m ih =>
    intro n h
    rw [natDigits_step m, natDigits_step n] at h
    by_cases hm : m < 10
    · by_cases hn : n < 10
      · rw [if_pos hm, if_pos hn] at h
        exact digitChar_inj m n hm hn (by simpa using h)
      · rw [if_pos hm, if_neg hn] at h
        cases hcs : natDigits (n / 10) with
        | nil => exact absurd hcs (natDigits_ne_nil _)
        | cons c cs =>
          rw [hcs, List.cons_append] at h
          simp at h
    · by_cases hn : n < 10
      · rw [if_neg hm, if_pos hn] at h
        cases hcs : natDigits (m / 10) with
        | nil => exact absurd hcs (natDigits_ne_nil _)
        | cons c cs =>
          rw [hcs, List.cons_append] at h
          simp at h
      · rw [if_neg hm, if_neg hn] at h
        have hsp := List.append_inj' h (by simp)
        have h1 : m / 10 = n / 10 := ih (m / 10) (by omega) (n / 10) hsp.1
        have h2 : m % 10 = n % 10 :=
          digitChar_inj _ _ (by omega) (by omega) (by simpa using hsp.2)
        omega

theorem natDecimal_inj (m n : Nat) (h : natDecimal m = natDecimal n) : m = n := by
  rw [natDecimal, natDecimal] at h
  exact natDigits_inj m n (by simpa using congrArg String.data h)

theorem intDecimal_data (i : Int) :
    (intDecimal i).data =
      if i < 0 then '-' :: natDigits (-i).toNat else natDigits i.toNat := by
  rw [intDecimal]
  by_cases hi : i < 0
  · rw [if_pos hi, if_pos hi]
    simp [natDecimal]
  · rw [if_neg hi, if_neg hi]
    rfl

theorem intDecimal_no_dot (i : Int) : '.' ∉ (intDecimal i).data := by
  intro hm
  rw [intDecimal_data] at hm
  have hdot : ('.').toNat = 46 := by decide
  by_cases hi : i < 0
  · rw [if_pos hi] at hm
    rcases List.mem_cons.mp hm with hm | hm
    · exact absurd (congrArg Char.toNat hm) (by decide)
    · have := natDigits_digits _ _ hm
      omega
  · rw [if_neg hi] at hm
    have := natDigits_digits _ _ hm
    omega

theorem intDecimal_inj (i j : Int) (h : intDecimal i = intDecimal j) : i = j := by
  have hd := congrArg String.data h
  rw [intDecimal_data, intDecimal_data] at hd
  by_cases hi : i < 0
  · by_cases hj : j < 0
    · rw [if_pos hi, if_pos hj] at hd
      have := natDigits_inj _ _ (List.tail_eq_of_cons_eq hd)
      omega
    · rw [if_pos hi, if_neg hj] at hd
      obtain ⟨c, cs, hc⟩ : ∃ c cs, natDigits j.toNat = c :: cs := by
        cases hcs : natDigits j.toNat with
        | nil => exact absurd hcs (natDigits_ne_nil _)
        | cons c cs => exact ⟨c, cs, rfl⟩
      rw [hc] at hd
      have hhead := List.head_eq_of_cons_eq hd
      have hdig := natDigits_digits j.toNat c (hc ▸ List.mem_cons_self _ _)
      have := congrArg Char.toNat hhead
      have hminus : ('-').toNat = 45 := by decide
      omega
  · by_cases hj : j < 0
    · rw [if_neg hi, if_pos hj] at hd
      obtain ⟨c, cs, hc⟩ : ∃ c cs, natDigits i.toNat = c :: cs := by
        cases hcs : natDigits i.toNat with
        | nil => exact absurd hcs (natDigits_ne_nil _)
        | cons c cs => exact ⟨c, cs, rfl⟩
      rw [hc] at hd
      have hhead := List.head_eq_of_cons_eq hd
      have hdig := natDigits_digits i.toNat c (hc ▸ List.mem_cons_self _ _)
      have := congrArg Char.toNat hhead
      have hminus : ('-').toNat = 45 := by decide
      omega
    · rw [if_neg hi, if_neg hj] at hd
      have := natDigits_inj _ _ hd
      omega

theorem dot_split (xs1 : List Char) :
    ∀ xs2 ys1 ys2, '.' ∉ xs1 → '.' ∉ xs2 →
      xs1 ++ '.' :: ys1 = xs2 ++ '.' :: ys2 → xs1 = xs2 ∧ ys1 = ys2 := by
  induction xs1 with
  | nil =>
    intro xs2 ys1 ys2 h1 h2 h
    cases xs2 with
    | nil => simpa using h
    | cons c2 l2 =>
      rw [List.nil_append, List.cons_append] at h
      have := List.head_eq_of_cons_eq h
      exact absurd (this ▸ List.mem_cons_self c2 l2 : '.' ∈ c2 :: l2) h2
  | cons c1 l1 ih =>
    intro xs2 ys1 ys2 h1 h2 h
    cases xs2 with
    | nil =>
      rw [List.nil_append, List.cons_append] at h
      have := List.head_eq_of_cons_eq h
      exact absurd (this.symm ▸ List.mem_cons_self c1 l1 : '.' ∈ c1 :: l1) h1
    | cons c2 l2 =>
      rw [List.cons_append, List.cons_append] at h
      have hh := List.head_eq_of_cons_eq h
      have ht := List.tail_eq_of_cons_eq h
      have := ih l2 ys1 ys2 (fun hm => h1 (List.mem_cons_of_mem _ hm))
        (fun hm => h2 (List.mem_cons_of_mem _ hm)) ht
      exact ⟨by rw [hh, this.1], this.2⟩

theorem logName_inj : Function.Injective logName := by
  intro un1 un2 h
  have hd := congrArg String.data h
  have hsplit : (intDecimal un1.1).data ++ '.' :: (natDigits un1.2) =
      (intDecimal un2.1).data ++ '.' :: (natDigits un2.2) := by
    simpa [logName, natDecimal] using hd
  have := dot_split _ _ _ _ (intDecimal_no_dot _) (intDecimal_no_dot _) hsplit
  have h1 : un1.1 = un2.1 := by
    apply intDecimal_inj
    apply congrArg String.mk
    exact this.1
  have h2 : un1.2 = un2.2 := natDigits_inj _ _ this.2
  exact Prod.ext h1 h2

theorem runWrites_cons (buf : List Item) (inp : (Int × Nat) × String)
    (l : List ((Int × Nat) × String)) :
    runWrites buf (inp :: l) =
      ((runWrites (writeStep buf inp.1.1 inp.1.2 inp.2).1 l).1,
        (writeStep buf inp.1.1 inp.1.2 inp.2).2.toList ++
          (runWrites (writeStep buf inp.1.1 inp.1.2 inp.2).1 l).2) := rfl

theorem writeStep_eq (buf : List Item) (u : Int) (ns : Nat) (text : String) :
    writeStep buf u ns text =
      if (buf ++ [mkLogItem u ns text]).length = 25 then
        ([], some (buf ++ [mkLogItem u ns text]))
      else (buf ++ [mkLogItem u ns text], none) := rfl

theorem runWrites_append (buf : List Item) (xs ys : List ((Int × Nat) × String)) :
    runWrites buf (xs ++ ys) =
      ((runWrites (runWrites buf xs).1 ys).1,
        (runWrites buf xs).2 ++ (runWrites (runWrites buf xs).1 ys).2) := by
  induction xs generalizing buf with
  | nil => simp [runWrites]
  | cons inp rest ih =>
    rw [List.cons_append, runWrites_cons, runWrites_cons, ih]
    simp [List.append_assoc]

theorem runWrites_no_flush (ts : List ((Int × Nat) × String)) :
    ∀ buf : List Item, buf.length + ts.length < 25 →
      runWrites buf ts = (buf ++ ts.map mkItemInp, []) := by
  induction ts with
  | nil =>
    intro buf h
    simp [runWrites]
  | cons inp rest ih =>
    intro buf h
    simp only [List.length_cons] at h
    rw [runWrites_cons, writeStep_eq,
      if_neg (by simp only [List.length_append, List.length_cons, List.length_nil]; omega)]
    rw [ih (buf ++ [mkLogItem inp.1.1 inp.1.2 inp.2])
      (by simp only [List.length_append, List.length_cons, List.length_nil]; omega)]
    simp [List.append_assoc, mkItemInp]

theorem runWrites_flush (ts : List ((Int × Nat) × String)) :
    ∀ buf : List Item, buf.length + ts.length = 25 → ts ≠ [] →
      runWrites buf ts = ([], [buf ++ ts.map mkItemInp]) := by
  induction ts with
  | nil =>
    intro buf h hne
    exact absurd rfl hne
  | cons inp rest ih =>
    intro buf h hne
    simp only [List.length_cons] at h
    by_cases hr : rest = []
    · subst hr
      simp only [List.length_nil] at h
      rw [runWrites_cons, writeStep_eq,
        if_pos (by simp only [List.length_append, List.length_cons, List.length_nil]; omega)]
      simp [runWrites, mkItemInp]
    · have hrp : 0 < rest.length := List.length_pos.mpr hr
      rw [runWrites_cons, writeStep_eq,
        if_neg (by simp only [List.length_append, List.length_cons, List.length_nil]; omega)]
      rw [ih (buf ++ [mkLogItem inp.1.1 inp.1.2 inp.2])
        (by simp only [List.length_append, List.length_cons, List.length_nil]; omega) hr]
      simp [List.append_assoc, mkItemInp]

/-- C9: starting from an empty buffer, 26 writes with pairwise distinct
time stamps produce exactly one flushed batch, namely the first 25 items in
write order; the buffer is empty right after the 25th write and holds exactly
the one item of the 26th write at the end; each item carries a single msg
attribute with the trimmed text and the items' time-derived names are
pairwise distinct. -/
theorem claim_C9 (inputs : List ((Int × Nat) × String)) (hlen : inputs.length = 26)
    (htimes : (inputs.map Prod.fst).Nodup) :
    (runWrites [] inputs).2 = [(inputs.take 25).map mkItemInp] ∧
    (runWrites [] (inputs.take 25)).1 = [] ∧
    (runWrites [] inputs).1 = (inputs.drop 25).map mkItemInp ∧
    (runWrites [] inputs).1.length = 1 ∧
    (((inputs.take 25).map mkItemInp).map Item.Name).Nodup ∧
    ∀ inp ∈ inputs, (mkItemInp inp).Attributes =
      [⟨"msg", goTrimSpace inp.2, false⟩] := by
  have htake : (inputs.take 25).length = 25 := by rw [List.length_take]; omega
  have hdrop : (inputs.drop 25).length = 1 := by rw [List.length_drop]; omega
  have hflush := runWrites_flush (inputs.take 25) []
    (by simp only [List.length_nil, htake, Nat.zero_add]) (by
      intro h0
      rw [h0] at htake
      simp at htake)
  have hnf := runWrites_no_flush (inputs.drop 25) []
    (by simp only [List.length_nil, hdrop]; omega)
  have hA := runWrites_append [] (inputs.take 25) (inputs.drop 25)
  rw [List.take_append_drop, hflush, hnf] at hA
  simp only [List.nil_append, List.append_nil] at hA hflush
  refine ⟨?_, ?_, ?_, ?_, ?_, ?_⟩
  · rw [hA]
  · rw [hflush]
  · rw [hA]
  · rw [hA]
    rw [List.length_map, hdrop]
  · have hmapname : ((inputs.take 25).map mkItemInp).map Item.Name =
        ((inputs.take 25).map Prod.fst).map logName := by
      rw [List.map_map, List.map_map]
      rfl
    rw [hmapname]
    refine List.Nodup.map logName_inj ?_
    rw [List.map_take]
    exact List.Nodup.sublist (List.take_sublist _ _) htimes
  · intro inp hm
    rfl

theorem claim_C9_witness :
    c9Inputs.length = 26 ∧ (c9Inputs.map Prod.fst).Nodup ∧
    ((runWrites [] c9Inputs).2 = [(c9Inputs.take 25).map mkItemInp] ∧
      (runWrites [] (c9Inputs.take 25)).1 = [] ∧
      (runWrites [] c9Inputs).1 = (c9Inputs.drop 25).map mkItemInp ∧
      (runWrites [] c9Inputs).1.length = 1 ∧
      (((c9Inputs.take 25).map mkItemInp).map Item.Name).Nodup ∧
      ∀ inp ∈ c9Inputs, (mkItemInp inp).Attributes =
        [⟨"msg", goTrimSpace inp.2, false⟩]) :=
  ⟨by decide, by decide, claim_C9 c9Inputs (by decide) (by decide)⟩

/-- C3: percent-decoding the canonical query string produced by the signer
recovers exactly the original key-to-values mapping: the decode yields the
sorted pair list, and for every key its value list agrees with the original
parameters; this holds for all key and value strings, spaces, plus signs,
equals signs and ampersands included. -/
theorem claim_C3 (p : Values) :
    decodeQuery (canonicalQuery p) = some (sortPairs p) ∧
    ∀ k, getValues (sortPairs p) k = getValues p k := by
  constructor
  · exact parseSegments_joinAmp (sortPairs p)
  · intro k
    exact getValues_sortPairs p k

theorem string_data_inj (s t : String) (h : s.data = t.data) : s = t := by
  cases s
  cases t
  simp_all

theorem getValues_append (p q : Values) (k : String) :
    getValues (p ++ q) k = getValues p k ++ getValues q k := by
  induction p with
  | nil => rfl
  | cons kv p ih =>
    rw [List.cons_append, getValues_cons, getValues_cons, ih]
    by_cases hk : kv.1 = k
    · rw [if_pos hk, if_pos hk, List.cons_append]
    · rw [if_neg hk, if_neg hk]

theorem mem_joinAmp (ls : List (List Char)) (c : Char) (hc : c ∈ joinAmp ls) :
    c = '&' ∨ ∃ s ∈ ls, c ∈ s := by
  match ls with
  | [] => simp [joinAmp] at hc
  | [x] =>
    right
    exact ⟨x, by simp, by simpa [joinAmp_single] using hc⟩
  | x :: y :: xs =>
    rw [joinAmp_cons2] at hc
    rcases List.mem_append.mp hc with hc | hc
    · right
      exact ⟨x, by simp, hc⟩
    · rcases List.mem_cons.mp hc with hc | hc
      · left
        exact hc
      · rcases mem_joinAmp (y :: xs) c hc with h | ⟨s, hs, hcs⟩
        · left
          exact h
        · right
          exact ⟨s, List.mem_cons_of_mem _ hs, hcs⟩

theorem canonPiece_no_newline (kv : String × String) (c : Char) (hc : c ∈ canonPiece kv) :
    c ≠ '\n' := by
  intro hcn
  subst hcn
  rw [canonPiece] at hc
  rcases List.mem_append.mp hc with hc | hc
  · exact (canonEscapeBytes_chars _ (utf8Encode_lt_256 _) _ hc).2.2.2 rfl
  · rcases List.mem_cons.mp hc with hc | hc
    · exact absurd hc (by decide)
    · exact (canonEscapeBytes_chars _ (utf8Encode_lt_256 _) _ hc).2.2.2 rfl

theorem canonicalQueryChars_no_newline (p : Values) (c : Char)
    (hc : c ∈ canonicalQueryChars p) : c ≠ '\n' := by
  rcases mem_joinAmp _ c hc with h | ⟨s, hs, hcs⟩
  · rw [h]
    decide
  · rcases List.mem_map.mp hs with ⟨kv, -, hkv⟩
    exact canonPiece_no_newline kv c (hkv ▸ hcs)

theorem insertPair_length (x : String × String) (l : Values) :
    (insertPair x l).length = l.length + 1 := by
  induction l with
  | nil => rfl
  | cons y l ih =>
    rw [insertPair]
    by_cases hle : x.1 ≤ y.1
    · rw [if_pos hle]
      rfl
    · rw [if_neg hle]
      simp [ih]

theorem sortPairs_length (p : Values) : (sortPairs p).length = p.length := by
  induction p with
  | nil => rfl
  | cons x p ih =>
    rw [sortPairs, insertPair_length, ih]
    rfl

theorem canonicalQueryChars_ne_nil (p : Values) (hp : p ≠ []) :
    canonicalQueryChars p ≠ [] := by
  have hsp : sortPairs p ≠ [] := by
    intro h0
    have := sortPairs_length p
    rw [h0] at this
    exact hp (List.eq_nil_of_length_eq_zero this.symm)
  rw [canonicalQueryChars]
  cases hc : sortPairs p with
  | nil => exact absurd hc hsp
  | cons kv rest =>
    rw [List.map_cons]
    cases rest with
    | nil =>
      rw [List.map_nil, joinAmp_single]
      exact canonPiece_ne_nil kv
    | cons kv2 rest2 =>
      rw [List.map_cons, joinAmp_cons2]
      intro hnil
      rcases List.append_eq_nil.mp hnil with ⟨h1, -⟩
      exact canonPiece_ne_nil kv h1

theorem stringToSign_decomp (sdb : SimpleDB) :
    stringToSign sdb = ("POST\n" ++ sdb.region ++ "\n" ++ "/\n") ++ canonicalQuery sdb.p := by
  rw [stringToSign, plusTo20_encodeValues]

/-- C1: the string-to-sign is exactly POST, a newline, the region host, a
newline, the root path, a newline, and the canonical query string, with the
canonical query string percent-encoded, sorted by key and using "%20" for
spaces; the string-to-sign does not end in a newline, and the Signature
parameter added before posting is the base64-encoded HMAC-SHA256 of the
string-to-sign keyed by the secret key. -/
theorem claim_C1 (sdb : SimpleDB) (hp : sdb.p ≠ [])
    (hsig : getValues sdb.p "Signature" = []) :
    stringToSign sdb =
      "POST" ++ "\n" ++ sdb.region ++ "\n" ++ "/" ++ "\n" ++ canonicalQuery sdb.p ∧
    (stringToSign sdb).data.getLast? ≠ some '\n' ∧
    getValues (postPrepare sdb).p "Signature" =
      [base64Encode (hmacSha256 (utf8Encode sdb.secretKey.data)
        (utf8Encode (stringToSign sdb).data))] := by
  refine ⟨?_, ?_, ?_⟩
  · rw [stringToSign, plusTo20_encodeValues]
    apply string_data_inj <;> simp
  · rw [stringToSign_decomp]
    have hne := canonicalQueryChars_ne_nil sdb.p hp
    intro hlast
    have hdata : (("POST\n" ++ sdb.region ++ "\n" ++ "/\n") ++ canonicalQuery sdb.p).data =
        ("POST\n" ++ sdb.region ++ "\n" ++ "/\n").data ++ canonicalQueryChars sdb.p := by
      simp [canonicalQuery]
    rw [hdata, List.getLast?_append] at hlast
    cases hcl : (canonicalQueryChars sdb.p).getLast? with
    | none =>
      have hgl := List.getLast?_eq_getLast (canonicalQueryChars sdb.p) hne
      rw [hgl] at hcl
      exact Option.noConfusion hcl
    | some z =>
      rw [hcl] at hlast
      have hz : z = '\n' := by simpa using hlast
      have hmem : z ∈ canonicalQueryChars sdb.p := by
        have hgl := List.getLast?_eq_getLast (canonicalQueryChars sdb.p) hne
        rw [hgl] at hcl
        have hz2 := Option.some.inj hcl
        rw [← hz2]
        exact List.getLast_mem _
      exact canonicalQueryChars_no_newline sdb.p z hmem hz
  · rw [postPrepare]
    simp only [addValue]
    rw [getValues_append, hsig, List.nil_append, getValues_cons, if_pos rfl]
    rfl

theorem claim_C1_witness :
    c1Sdb.p ≠ [] ∧ getValues c1Sdb.p "Signature" = [] ∧
    (stringToSign c1Sdb =
      "POST" ++ "\n" ++ c1Sdb.region ++ "\n" ++ "/" ++ "\n" ++ canonicalQuery c1Sdb.p ∧
      (stringToSign c1Sdb).data.getLast? ≠ some '\n' ∧
      getValues (postPrepare c1Sdb).p "Signature" =
        [base64Encode (hmacSha256 (utf8Encode c1Sdb.secretKey.data)
          (utf8Encode (stringToSign c1Sdb).data))]) :=
  ⟨by decide, by decide, claim_C1 c1Sdb (by decide) (by decide)⟩

theorem c5Sig_data (v : String) :
    (c5Sig v).data = base64Chars (hmacSha256 (utf8Encode ("secret" : String).data)
      (utf8Encode (stringToSign (c5Sdb v)).data)) := rfl

theorem c5Sig_length (v : String) : (c5Sig v).data.length = 44 := by
  rw [c5Sig_data, base64Chars_length, hmacSha256_length]

theorem char_toNat_inj (c d : Char) (h : c.toNat = d.toNat) : c = d := by
  have h2 := congrArg Char.ofNat h
  rwa [Char.ofNat_toNat, Char.ofNat_toNat] at h2

theorem c5Vec_eq_sig (v w : String) (h : c5Vec v = c5Vec w) : c5Sig v = c5Sig w := by
  apply string_data_inj
  apply List.ext_getElem (by rw [c5Sig_length, c5Sig_length])
  intro i h1 h2
  have hlt : i < 44 := by rw [c5Sig_length] at h1; exact h1
  have hfun := congrFun h ⟨i, hlt⟩
  simp only [c5Vec] at hfun
  have hv := congrArg Fin.val hfun
  simp only [] at hv
  rw [List.getD_eq_getElem _ _ h1, List.getD_eq_getElem _ _ h2] at hv
  have hballv : ∀ c ∈ (c5Sig v).data, c.toNat < 128 := base64Chars_toNat_lt _
  have hballw : ∀ c ∈ (c5Sig w).data, c.toNat < 128 := base64Chars_toNat_lt _
  have hb1 : ((c5Sig v).data[i]).toNat < 128 := hballv _ (List.getElem_mem h1)
  have hb2 : ((c5Sig w).data[i]).toNat < 128 := hballw _ (List.getElem_mem h2)
  rw [Nat.mod_eq_of_lt hb1, Nat.mod_eq_of_lt hb2] at hv
  exact char_toNat_inj _ _ hv

/-- C5 counterexample: two single-parameter maps over the same secret key that
differ only in the value of the one parameter "a" and nevertheless produce the
same signature; the signature has a fixed 44-character range, so among the
infinitely many values some pair must collide, refuting the claim that the
produced signatures always differ. -/
theorem claim_C5_counterexample :
    ∃ v1 v2 : String, v1 ≠ v2 ∧
      getValues (c5Sdb v1).p "a" = [v1] ∧ getValues (c5Sdb v2).p "a" = [v2] ∧
      (∀ k2, k2 ≠ "a" → getValues (c5Sdb v1).p k2 = getValues (c5Sdb v2).p k2) ∧
      sign (c5Sdb v1).secretKey (stringToSign (c5Sdb v1)) =
        sign (c5Sdb v2).secretKey (stringToSign (c5Sdb v2)) := by
  obtain ⟨m, n, hmn, heq⟩ := Finite.exists_ne_map_eq_of_infinite
    (fun j : Nat => c5Vec (String.mk (List.replicate j 'a')))
  refine ⟨String.mk (List.replicate m 'a'), String.mk (List.replicate n 'a'), ?_, ?_, ?_, ?_, ?_⟩
  · intro hvv
    apply hmn
    have hlen := congrArg (fun s : String => s.data.length) hvv
    simpa using hlen
  · show getValues [("a", String.mk (List.replicate m 'a'))] "a" = _
    rw [getValues_cons, if_pos rfl]
    rfl
  · show getValues [("a", String.mk (List.replicate n 'a'))] "a" = _
    rw [getValues_cons, if_pos rfl]
    rfl
  · intro k2 hk2
    show getValues [("a", String.mk (List.replicate m 'a'))] k2 =
      getValues [("a", String.mk (List.replicate n 'a'))] k2
    rw [getValues_cons, getValues_cons, if_neg (fun h => hk2 h.symm),
      if_neg (fun h => hk2 h.symm)]
  · exact c5Vec_eq_sig _ _ heq

theorem string_append_cancel_left (a b c : String) (h : a ++ b = a ++ c) : b = c := by
  have hd := congrArg String.data h
  simp only [String.data_append] at hd
  exact string_data_inj _ _ (List.append_cancel_left hd)

/-- C5 amended: for two parameter maps over clients with the same region that
differ in the value of exactly one parameter, the computed strings-to-sign
differ, so the HMAC inputs differ; the signatures themselves can only collide
when HMAC-SHA256 collides on the two strings-to-sign. -/
theorem claim_C5 (sdb1 sdb2 : SimpleDB) (k v1 v2 : String)
    (hreg : sdb1.region = sdb2.region)
    (hk1 : getValues sdb1.p k = [v1]) (hk2 : getValues sdb2.p k = [v2]) (hne : v1 ≠ v2)
    (hother : ∀ k2, k2 ≠ k → getValues sdb1.p k2 = getValues sdb2.p k2) :
    stringToSign sdb1 ≠ stringToSign sdb2 := by
  intro heq
  rw [stringToSign_decomp, stringToSign_decomp, hreg] at heq
  have hcan : canonicalQuery sdb1.p = canonicalQuery sdb2.p :=
    string_append_cancel_left _ _ _ heq
  have hdec := congrArg decodeQuery hcan
  have hd1 : decodeQuery (canonicalQuery sdb1.p) = some (sortPairs sdb1.p) :=
    parseSegments_joinAmp _
  have hd2 : decodeQuery (canonicalQuery sdb2.p) = some (sortPairs sdb2.p) :=
    parseSegments_joinAmp _
  rw [hd1, hd2] at hdec
  have hsp := Option.some.inj hdec
  have hgv : getValues sdb1.p k = getValues sdb2.p k := by
    rw [← getValues_sortPairs sdb1.p k, hsp, getValues_sortPairs]
  rw [hk1, hk2] at hgv
  exact hne (List.head_eq_of_cons_eq hgv)

theorem claim_C5_witness :
    (c5Sdb "x").region = (c5Sdb "y").region ∧
    getValues (c5Sdb "x").p "a" = ["x"] ∧ getValues (c5Sdb "y").p "a" = ["y"] ∧
    ("x" : String) ≠ "y" ∧
    (∀ k2, k2 ≠ "a" → getValues (c5Sdb "x").p k2 = getValues (c5Sdb "y").p k2) ∧
    stringToSign (c5Sdb "x") ≠ stringToSign (c5Sdb "y") := by
  have hoth : ∀ k2, k2 ≠ "a" → getValues (c5Sdb "x").p k2 = getValues (c5Sdb "y").p k2 := by
    intro k2 hk2
    show getValues [("a", "x")] k2 = getValues [("a", "y")] k2
    rw [getValues_cons, getValues_cons, if_neg (fun h => hk2 h.symm),
      if_neg (fun h => hk2 h.symm)]
  exact ⟨rfl, by decide, by decide, by decide, hoth,
    claim_C5 (c5Sdb "x") (c5Sdb "y") "a" "x" "y" rfl (by decide) (by decide) (by decide) hoth⟩

end SDB
